import Mathlib

/-!
Verification development for the al-lsp syntactic analysis engine.

The Rust sources are embedded shallowly:

* tree-sitter CST nodes become the inductive `Node`; the parser itself is an
  external collaborator, so parse trees are inputs (concrete trees below mirror
  what the AL grammar produces on the cited test sources).
* Byte offsets are modelled as character indices into the source string; this
  is exact for the ASCII sources considered here.  The one place where real
  UTF-8 byte arithmetic matters (completion prefix extraction) gets its own
  byte-accurate model further down.
* `str::to_lowercase` is modelled per character on the ASCII range
  (`rust_to_lowercase`), which is exact for ASCII identifiers.
* Fallible Rust (`Option`, panics) becomes `Option` in Lean; `none` models a
  panic where noted.
-/

/-- Per-character ASCII lowercasing, modelling `str::to_lowercase` as the code
applies it to identifiers (exact on the ASCII range). -/
def lowerChar (c : Char) : Char :=
  match c with
  | 'A' => 'a' | 'B' => 'b' | 'C' => 'c' | 'D' => 'd' | 'E' => 'e'
  | 'F' => 'f' | 'G' => 'g' | 'H' => 'h' | 'I' => 'i' | 'J' => 'j'
  | 'K' => 'k' | 'L' => 'l' | 'M' => 'm' | 'N' => 'n' | 'O' => 'o'
  | 'P' => 'p' | 'Q' => 'q' | 'R' => 'r' | 'S' => 's' | 'T' => 't'
  | 'U' => 'u' | 'V' => 'v' | 'W' => 'w' | 'X' => 'x' | 'Y' => 'y'
  | 'Z' => 'z'
  | c => c

/-- Models `name.to_lowercase()` from the Rust sources. -/
def rust_to_lowercase (s : String) : String :=
  ⟨s.data.map lowerChar⟩

/-- Drop every leading occurrence of `q` from a character list. -/
def dropLeading (q : Char) : List Char → List Char
  | [] => []
  | c :: cs => if c = q then dropLeading q cs else c :: cs

/-- Models Rust `str::trim_matches('"')`: strips every leading and trailing
double quote. -/
def trim_matches_quote (s : String) : String :=
  ⟨((dropLeading '"' s.data.reverse).reverse |> dropLeading '"')⟩

/-- Character-indexed slice of the source text; models `&source[a..b]` for the
ASCII sources considered (bytes coincide with characters). -/
def sliceStr (s : String) (a b : Nat) : String :=
  ⟨(s.data.drop a).take (b - a)⟩

/-- A tree-sitter point (row, column). -/
structure Point where
  row : Nat
  col : Nat
deriving DecidableEq, Repr

/-- Shallow model of a tree-sitter CST node.  `nid` models `Node::id` (used by
the Rust code only for equality tests); `fieldName` is the grammar field this
node occupies in its parent (`child_by_field_name` looks it up); `missing`
models `Node::is_missing`. -/
inductive Node : Type where
  | mk : (nid : Nat) → (kind : String) → (named : Bool) →
      (fieldName : Option String) → (startByte : Nat) → (endByte : Nat) →
      (startPoint : Point) → (endPoint : Point) → (missing : Bool) →
      (children : List Node) → Node

def Node.nid : Node → Nat
  | .mk i _ _ _ _ _ _ _ _ _ => i

def Node.kind : Node → String
  | .mk _ k _ _ _ _ _ _ _ _ => k

def Node.named : Node → Bool
  | .mk _ _ n _ _ _ _ _ _ _ => n

def Node.fieldName : Node → Option String
  | .mk _ _ _ f _ _ _ _ _ _ => f

def Node.startByte : Node → Nat
  | .mk _ _ _ _ s _ _ _ _ _ => s

def Node.endByte : Node → Nat
  | .mk _ _ _ _ _ e _ _ _ _ => e

def Node.startPoint : Node → Point
  | .mk _ _ _ _ _ _ p _ _ _ => p

def Node.endPoint : Node → Point
  | .mk _ _ _ _ _ _ _ p _ _ => p

def Node.missing : Node → Bool
  | .mk _ _ _ _ _ _ _ _ m _ => m

def Node.children : Node → List Node
  | .mk _ _ _ _ _ _ _ _ _ cs => cs

/-- Models `Node::named_children`. -/
def Node.namedChildren (n : Node) : List Node :=
  n.children.filter (·.named)

/-- Models `Node::child_by_field_name`: the first child carrying the field. -/
def Node.childByFieldName (n : Node) (f : String) : Option Node :=
  n.children.find? (·.fieldName = some f)

/-- Models `Node::is_error` (tree-sitter error nodes have kind `ERROR`). -/
def Node.isError (n : Node) : Bool :=
  n.kind = "ERROR"

/-- Models `node.utf8_text(source)`; see the byte-as-character convention in
the module docstring. -/
def node_text (source : String) (n : Node) : String :=
  sliceStr source n.startByte n.endByte

/-- Strong induction over `Node` (children before parent). -/
theorem Node.strongInd (P : Node → Prop)
    (h : ∀ i k nm f sb eb sp ep ms cs, (∀ c ∈ cs, P c) →
      P (.mk i k nm f sb eb sp ep ms cs)) : ∀ n, P n
  | .mk i k nm f sb eb sp ep ms cs =>
    h i k nm f sb eb sp ep ms cs (fun c hc =>
      have : sizeOf c < sizeOf (Node.mk i k nm f sb eb sp ep ms cs) := by
        have := List.sizeOf_lt_of_mem hc
        simp only [Node.mk.sizeOf_spec]
        omega
      Node.strongInd P h c)
termination_by n => sizeOf n

mutual
/-- All nodes of a (sub)tree paired with their tree parent, in pre-order.
This makes the Rust `Node::parent()` accessor available to the embedding. -/
def nodesWithParents (p : Option Node) : Node → List (Option Node × Node)
  | .mk i k nm f sb eb sp ep ms cs =>
    (p, .mk i k nm f sb eb sp ep ms cs) ::
      nodesWithParentsList (some (.mk i k nm f sb eb sp ep ms cs)) cs
def nodesWithParentsList (p : Option Node) : List Node → List (Option Node × Node)
  | [] => []
  | c :: cs => nodesWithParents p c ++ nodesWithParentsList p cs
end

theorem nodesWithParents_eq (p : Option Node) (n : Node) :
    nodesWithParents p n = (p, n) :: nodesWithParentsList (some n) n.children := by
  cases n; rfl

/-- All nodes of a tree, in pre-order. -/
def allNodes (root : Node) : List Node :=
  (nodesWithParents none root).map (·.2)

/-- Models Rust `str::trim` as the sources use it (ASCII whitespace). -/
def rust_trim (s : String) : String :=
  ⟨((s.data.dropWhile Char.isWhitespace).reverse.dropWhile Char.isWhitespace).reverse⟩

/-- Models `str::ends_with`. -/
def ends_with (s suffix : String) : Bool :=
  suffix.data.isSuffixOf s.data

/-- Models `str::starts_with` / the success test of `str::strip_prefix`. -/
def stripPrefixOpt (s p : String) : Option String :=
  if p.data.isPrefixOf s.data then some ⟨s.data.drop p.data.length⟩ else none

/-- The identifier node kinds name extraction and resolution act on. -/
def identKind (n : Node) : Prop :=
  n.kind = "identifier" ∨ n.kind = "quoted_identifier"

instance (n : Node) : Decidable (identKind n) := by
  unfold identKind; infer_instance

/-! ## `ast.rs`: symbol kinds and the symbol extractor -/

/-- Models `AlObjectKind` from `ast.rs`. -/
inductive AlObjectKind : Type where
  | Table | TableExtension | Page | PageExtension | Codeunit | Report
  | Enum | EnumExtension | Xmlport | Query | Interface | PermissionSet
  | ControlAddin
deriving DecidableEq, Repr

/-- Models `AlObjectKind::from_node_kind`. -/
def AlObjectKind.from_node_kind : String → Option AlObjectKind
  | "table_declaration" => some .Table
  | "table_extension_declaration" => some .TableExtension
  | "page_declaration" => some .Page
  | "page_extension_declaration" => some .PageExtension
  | "codeunit_declaration" => some .Codeunit
  | "report_declaration" => some .Report
  | "enum_declaration" => some .Enum
  | "enum_extension_declaration" => some .EnumExtension
  | "xmlport_declaration" => some .Xmlport
  | "query_declaration" => some .Query
  | "interface_declaration" => some .Interface
  | "permissionset_declaration" => some .PermissionSet
  | "controladdin_declaration" => some .ControlAddin
  | _ => none

/-- Models `AlObjectKind::label`. -/
def AlObjectKind.label : AlObjectKind → String
  | .Table => "table"
  | .TableExtension => "tableextension"
  | .Page => "page"
  | .PageExtension => "pageextension"
  | .Codeunit => "codeunit"
  | .Report => "report"
  | .Enum => "enum"
  | .EnumExtension => "enumextension"
  | .Xmlport => "xmlport"
  | .Query => "query"
  | .Interface => "interface"
  | .PermissionSet => "permissionset"
  | .ControlAddin => "controladdin"

/-- Models `AlSymbolKind`. -/
inductive AlSymbolKind : Type where
  | Object : AlObjectKind → AlSymbolKind
  | Procedure | Trigger | Variable | Parameter | Field | Key | EnumValue
deriving DecidableEq, Repr

def AlSymbolKind.isObject : AlSymbolKind → Bool
  | .Object _ => true
  | _ => false

/-- Models `AlSymbol`.  The provided copy of `ast.rs` does not carry the
`implements` field on the struct, but `symbols.rs` (and its tests) read
`sym.implements`; the field is therefore modelled from the spec: "Objects
additionally carry an `implements` list: zero or more interface names declared
on the object header."  Non-objects carry the empty list. -/
inductive AlSymbol : Type where
  | mk : (name : String) → (kind : AlSymbolKind) → (type_info : Option String) →
      (start_byte : Nat) → (end_byte : Nat) →
      (start_point : Point) → (end_point : Point) →
      (implements : List String) → (children : List AlSymbol) → AlSymbol

def AlSymbol.name : AlSymbol → String
  | .mk n _ _ _ _ _ _ _ _ => n

def AlSymbol.kind : AlSymbol → AlSymbolKind
  | .mk _ k _ _ _ _ _ _ _ => k

def AlSymbol.type_info : AlSymbol → Option String
  | .mk _ _ t _ _ _ _ _ _ => t

def AlSymbol.start_byte : AlSymbol → Nat
  | .mk _ _ _ s _ _ _ _ _ => s

def AlSymbol.end_byte : AlSymbol → Nat
  | .mk _ _ _ _ e _ _ _ _ => e

def AlSymbol.start_point : AlSymbol → Point
  | .mk _ _ _ _ _ p _ _ _ => p

def AlSymbol.end_point : AlSymbol → Point
  | .mk _ _ _ _ _ _ p _ _ => p

def AlSymbol.implements : AlSymbol → List String
  | .mk _ _ _ _ _ _ _ im _ => im

def AlSymbol.children : AlSymbol → List AlSymbol
  | .mk _ _ _ _ _ _ _ _ cs => cs

/-- Models `extract_name`: for `quoted_identifier` nodes the surrounding
double quotes are stripped (`trim_matches('"')`). -/
def extract_name (source : String) (n : Node) : String :=
  if n.kind = "quoted_identifier" then trim_matches_quote (node_text source n)
  else node_text source n

/-- Models `find_object_name`: the first named `identifier` or
`quoted_identifier` child gives the object name. -/
def find_object_name (source : String) (n : Node) : Option String :=
  (n.namedChildren.find? (fun c => identKind c)).map (extract_name source)

/-- Models `extract_type_info` (the verbatim source text of the type node). -/
def extract_type_info (source : String) (n : Node) : String :=
  node_text source n

/-- Models `extract_var_symbols`. -/
def extract_var_symbols (source : String) (n : Node) : List AlSymbol :=
  n.namedChildren.filterMap (fun child =>
    if child.kind = "variable_declaration" then
      (child.childByFieldName "name").map (fun name_node =>
        .mk (extract_name source name_node) .Variable
          ((child.childByFieldName "type").map (extract_type_info source))
          child.startByte child.endByte child.startPoint child.endPoint [] [])
    else none)

/-- Models `extract_parameter_symbols`. -/
def extract_parameter_symbols (source : String) (n : Node) : List AlSymbol :=
  n.namedChildren.filterMap (fun child =>
    if child.kind = "parameter" then
      (child.childByFieldName "name").map (fun name_node =>
        .mk (extract_name source name_node) .Parameter
          ((child.childByFieldName "type").map (extract_type_info source))
          child.startByte child.endByte child.startPoint child.endPoint [] [])
    else none)

/-- Models `extract_field_symbols`. -/
def extract_field_symbols (source : String) (n : Node) : List AlSymbol :=
  n.namedChildren.filterMap (fun child =>
    if child.kind = "field_declaration" then
      (child.childByFieldName "name").map (fun name_node =>
        .mk (extract_name source name_node) .Field
          ((child.childByFieldName "type").map (extract_type_info source))
          child.startByte child.endByte child.startPoint child.endPoint [] [])
    else none)

/-- Models `extract_key_symbols`. -/
def extract_key_symbols (source : String) (n : Node) : List AlSymbol :=
  n.namedChildren.filterMap (fun child =>
    if child.kind = "key_declaration" then
      (child.childByFieldName "name").map (fun name_node =>
        .mk (extract_name source name_node) .Key none
          child.startByte child.endByte child.startPoint child.endPoint [] [])
    else none)

/-- Models `extract_enum_value_symbol`. -/
def extract_enum_value_symbol (source : String) (n : Node) : Option AlSymbol :=
  (n.childByFieldName "name").map (fun name_node =>
    .mk (extract_name source name_node) .EnumValue none
      n.startByte n.endByte n.startPoint n.endPoint [] [])

/-- Models `extract_procedure_symbol`: the return type (field `return_type`)
is stored after `trim_start_matches(':')` and `trim()`; children are the
parameters (field `parameters`) followed by the locals (field `vars`). -/
def extract_procedure_symbol (source : String) (n : Node) : Option AlSymbol :=
  (n.childByFieldName "name").map (fun name_node =>
    let type_info := (n.childByFieldName "return_type").map (fun rt =>
      rust_trim ⟨dropLeading ':' (node_text source rt).data⟩)
    let params := match n.childByFieldName "parameters" with
      | some ps => extract_parameter_symbols source ps
      | none => []
    let vars := match n.childByFieldName "vars" with
      | some vs => extract_var_symbols source vs
      | none => []
    .mk (extract_name source name_node) .Procedure type_info
      n.startByte n.endByte n.startPoint n.endPoint [] (params ++ vars))

/-- Models `extract_trigger_symbol`. -/
def extract_trigger_symbol (source : String) (n : Node) : Option AlSymbol :=
  (n.childByFieldName "name").map (fun name_node =>
    let vars := match n.childByFieldName "vars" with
      | some vs => extract_var_symbols source vs
      | none => []
    .mk (extract_name source name_node) .Trigger none
      n.startByte n.endByte n.startPoint n.endPoint [] vars)

/-- Models `extract_children_symbols` (the dispatch on member node kinds). -/
def extract_children_symbols (source : String) (n : Node) : List AlSymbol :=
  n.namedChildren.flatMap (fun child =>
    if child.kind = "procedure_declaration" then
      (extract_procedure_symbol source child).toList
    else if child.kind = "trigger_declaration" then
      (extract_trigger_symbol source child).toList
    else if child.kind = "var_section" then extract_var_symbols source child
    else if child.kind = "fields_section" then extract_field_symbols source child
    else if child.kind = "keys_section" then extract_key_symbols source child
    else if child.kind = "enum_value_declaration" then
      (extract_enum_value_symbol source child).toList
    else [])

/-- Modelled from the spec: the `implements` clause extraction is absent from
the provided `ast.rs` (`extract_object_symbol` there does not populate an
`implements` field), while `symbols.rs` and its tests rely on it.  Per the
spec, "The object's `implements` list is derived from the implements clause
(comma-separated identifiers)": the clause node (`implements_clause`, cf. the
formatter's comment in `formatting.rs`) lists the interface names as
identifier children in source order. -/
def extract_implements (source : String) (n : Node) : List String :=
  match n.children.find? (fun c => c.kind = "implements_clause") with
  | some clause =>
      (clause.namedChildren.filter (fun c =>
        c.kind = "identifier" ∨ c.kind = "quoted_identifier")).map (extract_name source)
  | none => []

/-- Models `extract_object_symbol` (with the spec-modelled `implements`). -/
def extract_object_symbol (source : String) (n : Node) (kind : AlObjectKind) :
    Option AlSymbol :=
  (find_object_name source n).map (fun name =>
    .mk name (.Object kind) (some kind.label)
      n.startByte n.endByte n.startPoint n.endPoint
      (extract_implements source n) (extract_children_symbols source n))

/-- Models `extract_symbols` (top-level walk of the `source_file` node). -/
def extract_symbols (tree : Node) (source : String) : List AlSymbol :=
  tree.namedChildren.filterMap (fun child =>
    match AlObjectKind.from_node_kind child.kind with
    | some obj_kind => extract_object_symbol source child obj_kind
    | none => none)

/-! ## `symbols.rs`: the symbol table -/

/-- Models `DocumentSymbolTable`.  The `index` HashMap is modelled
functionally: `insert_into_index` records every symbol of the tree, in
pre-order, under its lowercased name, and `resolve_ref` restores the symbol
itself, so `lookup` is the pre-order filter below. -/
structure DocumentSymbolTable where
  symbols : List AlSymbol

mutual
/-- Pre-order listing of a symbol tree (the insertion order of
`insert_into_index`). -/
def symPreorder : AlSymbol → List AlSymbol
  | .mk n k t sb eb sp ep im cs =>
    .mk n k t sb eb sp ep im cs :: symPreorderList cs
def symPreorderList : List AlSymbol → List AlSymbol
  | [] => []
  | s :: ss => symPreorder s ++ symPreorderList ss
end

theorem symPreorder_eq (s : AlSymbol) :
    symPreorder s = s :: symPreorderList s.children := by
  cases s; rfl

/-- Models `DocumentSymbolTable::lookup` (case-insensitive global lookup via
the index). -/
def DocumentSymbolTable.lookup (t : DocumentSymbolTable) (name : String) :
    List AlSymbol :=
  let key := rust_to_lowercase name
  (symPreorderList t.symbols).filter (fun s => rust_to_lowercase s.name = key)

/-- Models the first inner loop of `lookup_in_scope` (symbols.rs:52-64): for
each child whose span contains the offset, push its children matching the key;
return as soon as the accumulated results are non-empty. -/
def localsSearch (key : String) (o : Nat) :
    List AlSymbol → List AlSymbol → Option (List AlSymbol)
  | [], _ => none
  | c :: cs, results =>
    if c.start_byte ≤ o ∧ o ≤ c.end_byte then
      let results := results ++ c.children.filter
        (fun l => rust_to_lowercase l.name = key)
      if results.isEmpty then localsSearch key o cs results else some results
    else localsSearch key o cs results

/-- Models the outer loop of `lookup_in_scope` (symbols.rs:49-75): for each
top-level symbol containing the offset, run the procedure-local layer, then
the object-member layer; `none` means the loop fell through without an early
return. -/
def scopeSearch (key : String) (o : Nat) : List AlSymbol → Option (List AlSymbol)
  | [] => none
  | s :: ss =>
    if s.start_byte ≤ o ∧ o ≤ s.end_byte then
      match localsSearch key o s.children [] with
      | some results => some results
      | none =>
        let objResults := s.children.filter
          (fun c => rust_to_lowercase c.name = key)
        if objResults.isEmpty then scopeSearch key o ss else some objResults
    else scopeSearch key o ss

/-- Models `DocumentSymbolTable::lookup_in_scope`. -/
def DocumentSymbolTable.lookup_in_scope (t : DocumentSymbolTable)
    (name : String) (scope_byte : Nat) : List AlSymbol :=
  match scopeSearch (rust_to_lowercase name) scope_byte t.symbols with
  | some results => results
  | none => t.lookup name

/-- Models `DocumentSymbolTable::find_object_by_name`. -/
def DocumentSymbolTable.find_object_by_name (t : DocumentSymbolTable)
    (name : String) : Option AlSymbol :=
  let lower := rust_to_lowercase name
  t.symbols.find? (fun s => s.kind.isObject ∧ rust_to_lowercase s.name = lower)

/-! ## `navigation.rs`: offset resolution, definitions, references -/

mutual
/-- Models `find_deepest_named_node`, additionally returning the tree parent
of the node it settles on (the Rust code later reads `node.parent()`). -/
def fdnn (p : Option Node) : Node → Nat → Option (Option Node × Node)
  | .mk i k nm f sb eb sp ep ms cs, off =>
    if off < sb ∨ eb < off then none
    else
      match fdnnNamed (some (.mk i k nm f sb eb sp ep ms cs)) cs off with
      | some r => some r
      | none =>
        match fdnnUnnamed (some (.mk i k nm f sb eb sp ep ms cs)) cs off with
        | some r => some r
        | none =>
          if nm then some (p, .mk i k nm f sb eb sp ep ms cs) else none
/-- The first loop: descend into named children whose span contains the
offset. -/
def fdnnNamed (p : Option Node) : List Node → Nat → Option (Option Node × Node)
  | [], _ => none
  | c :: cs, off =>
    if c.named ∧ c.startByte ≤ off ∧ off ≤ c.endByte then
      match fdnn p c off with
      | some r => some r
      | none => fdnnNamed p cs off
    else fdnnNamed p cs off
/-- The second loop: look inside unnamed children for named descendants. -/
def fdnnUnnamed (p : Option Node) : List Node → Nat → Option (Option Node × Node)
  | [], _ => none
  | c :: cs, off =>
    if ¬c.named ∧ c.startByte ≤ off ∧ off ≤ c.endByte then
      match fdnn p c off with
      | some r => some r
      | none => fdnnUnnamed p cs off
    else fdnnUnnamed p cs off
end

theorem fdnn_eq (p : Option Node) (n : Node) (off : Nat) :
    fdnn p n off =
      if off < n.startByte ∨ n.endByte < off then none
      else
        match fdnnNamed (some n) n.children off with
        | some r => some r
        | none =>
          match fdnnUnnamed (some n) n.children off with
          | some r => some r
          | none => if n.named then some (p, n) else none := by
  cases n; rfl

/-- Models `node_at_offset` (the public entry point, which does not expose the
parent). -/
def node_at_offset (tree : Node) (byte_offset : Nat) : Option Node :=
  (fdnn none tree byte_offset).map (·.2)

/-- Models `ResolvedSymbol`. -/
structure ResolvedSymbol where
  symbol : AlSymbol
  name : String

/-- Models `resolve_at_offset`: resolve the identifier at the offset via
scoped lookup, refusing to resolve when the first result's byte span equals
the identifier node's own span. -/
def resolve_at_offset (tree : Node) (source : String)
    (t : DocumentSymbolTable) (byte_offset : Nat) : Option ResolvedSymbol :=
  match node_at_offset tree byte_offset with
  | none => none
  | some node =>
    if identKind node then
      let name := extract_name source node
      match t.lookup_in_scope name byte_offset with
      | [] => none
      | symbol :: _ =>
        if symbol.start_byte = node.startByte ∧ symbol.end_byte = node.endByte
        then none
        else some ⟨symbol, name⟩
    else none

/-- Models `IdentifierContext`. -/
structure IdentifierContext where
  node : Node
  name : String
  symbol : Option AlSymbol
  is_definition : Bool

/-- The declaration kinds listed in `is_definition_node`. -/
def declParentKinds : List String :=
  ["variable_declaration", "parameter", "procedure_declaration",
   "trigger_declaration", "field_declaration", "key_declaration",
   "enum_value_declaration", "interface_method"]

/-- Models `is_definition_node`; the Rust code reads `node.parent()`, which the
embedding passes explicitly. -/
def is_definition_node (parent : Option Node) (node : Node) : Bool :=
  match parent with
  | none => false
  | some parent =>
    let is_decl := parent.kind ∈ declParentKinds ∨
      ends_with parent.kind "_declaration"
    if is_decl then
      match parent.childByFieldName "name" with
      | some name_node => name_node.nid = node.nid
      | none =>
        if ends_with parent.kind "_declaration" then
          match parent.namedChildren.find? (fun c => identKind c) with
          | some child => child.nid = node.nid
          | none => false
        else false
    else false

/-- Models `identifier_context_at_offset`. -/
def identifier_context_at_offset (tree : Node) (source : String)
    (t : DocumentSymbolTable) (byte_offset : Nat) : Option IdentifierContext :=
  match fdnn none tree byte_offset with
  | none => none
  | some (parent, node) =>
    if identKind node then
      let name := extract_name source node
      let results := t.lookup_in_scope name byte_offset
      some ⟨node, name, results.head?, is_definition_node parent node⟩
    else none

mutual
/-- Models `collect_identifier_nodes`: pre-order walk collecting every
`identifier`/`quoted_identifier` node whose lowercased name matches, paired
with its tree parent (on which the Rust callback calls `node.parent()`). -/
def collect_identifier_nodes (source : String) (target_name_lower : String)
    (p : Option Node) : Node → List (Option Node × Node)
  | .mk i k nm f sb eb sp ep ms cs =>
    (if identKind (.mk i k nm f sb eb sp ep ms cs) ∧
        rust_to_lowercase (extract_name source (.mk i k nm f sb eb sp ep ms cs))
          = target_name_lower
     then [(p, .mk i k nm f sb eb sp ep ms cs)] else []) ++
      collect_identifier_nodes_list source target_name_lower
        (some (.mk i k nm f sb eb sp ep ms cs)) cs
def collect_identifier_nodes_list (source : String) (target_name_lower : String)
    (p : Option Node) : List Node → List (Option Node × Node)
  | [] => []
  | c :: cs =>
    collect_identifier_nodes source target_name_lower p c ++
      collect_identifier_nodes_list source target_name_lower p cs
end

theorem collect_identifier_nodes_eq (source target : String) (p : Option Node)
    (n : Node) :
    collect_identifier_nodes source target p n =
      (if identKind n ∧ rust_to_lowercase (extract_name source n) = target
       then [(p, n)] else []) ++
        collect_identifier_nodes_list source target (some n) n.children := by
  cases n; rfl

/-- The per-candidate body of `find_all_references` (navigation.rs:216-244). -/
def referenceEntry (source : String) (t : DocumentSymbolTable)
    (target_name : String) (target_start target_end : Nat)
    (include_declaration : Bool) (pr : Option Node × Node) :
    Option (Point × Point) :=
  let node := pr.2
  let node_name := extract_name source node
  if rust_to_lowercase node_name ≠ target_name then none
  else if is_definition_node pr.1 node then
    match pr.1 with
    | some parent =>
      if parent.startByte = target_start ∧ parent.endByte = target_end ∧
          include_declaration
      then some (node.startPoint, node.endPoint) else none
    | none => none
  else
    match t.lookup_in_scope node_name node.startByte with
    | [] => none
    | resolved :: _ =>
      if resolved.start_byte = target_start ∧ resolved.end_byte = target_end
      then some (node.startPoint, node.endPoint) else none

/-- Models `find_all_references`. -/
def find_all_references (tree : Node) (source : String)
    (t : DocumentSymbolTable) (byte_offset : Nat)
    (include_declaration : Bool) : List (Point × Point) :=
  match identifier_context_at_offset tree source t byte_offset with
  | none => []
  | some ctx =>
    match ctx.symbol with
    | none => []
    | some target_symbol =>
      let target_name := rust_to_lowercase ctx.name
      (collect_identifier_nodes source target_name none tree).filterMap
        (referenceEntry source t target_name target_symbol.start_byte
          target_symbol.end_byte include_declaration)

/-- The type-kind keywords recognised by `extract_type_object_name`. -/
def typeKindList : List String :=
  ["Record", "Codeunit", "Page", "Report", "Query", "Xmlport", "Enum",
   "Interface"]

/-- The loop body of `extract_type_object_name`: try each kind keyword in
order; once one is a prefix, the function commits to it (returning `none` when
the remainder collapses to the empty string). -/
def typeNameLoop : List String → String → Option String
  | [], _ => none
  | p :: ps, ti =>
    match stripPrefixOpt ti p with
    | some rest =>
      let rest := rust_trim rest
      if rest.isEmpty then none
      else
        let name := trim_matches_quote rest
        if name.isEmpty then none else some name
    | none => typeNameLoop ps ti

/-- Models `extract_type_object_name`. -/
def extract_type_object_name (type_info : String) : Option String :=
  typeNameLoop typeKindList (rust_trim type_info)

/-! ## `diagnostics.rs` and `document.rs`: per-document state -/

/-- Models `lsp_types::Diagnostic` as the code populates it. -/
structure Diagnostic where
  range_start : Point
  range_end : Point
  severity : String
  source : String
  message : String
deriving DecidableEq, Repr

mutual
/-- Models `walk_for_errors`: one diagnostic per error node (first 50
characters of its text) and one per missing node. -/
def walk_for_errors (source : String) : Node → List Diagnostic
  | .mk i k nm f sb eb sp ep ms cs =>
    (if Node.isError (.mk i k nm f sb eb sp ep ms cs) then
      [⟨sp, ep, "Error", "al-lsp",
        "Syntax error: unexpected `" ++
          ⟨(node_text source (.mk i k nm f sb eb sp ep ms cs)).data.take 50⟩ ++
          "`"⟩]
     else if ms then
      [⟨sp, ⟨sp.row, sp.col + 1⟩, "Error", "al-lsp", "Expected `" ++ k ++ "`"⟩]
     else []) ++ walk_for_errors_list source cs
def walk_for_errors_list (source : String) : List Node → List Diagnostic
  | [] => []
  | c :: cs => walk_for_errors source c ++ walk_for_errors_list source cs
end

/-- Models `extract_diagnostics`. -/
def extract_diagnostics (tree : Node) (source : String) : List Diagnostic :=
  walk_for_errors source tree

/-- Models `DocumentState` (the rope is its text content). -/
structure DocumentState where
  rope : String
  tree : Node
  symbol_table : DocumentSymbolTable
  diagnostics : List Diagnostic

/-- Models `DocumentState::new`; `parse` abstracts the external
`al_parser::parse` (the tree-sitter CST builder), whose failure is `none`. -/
def DocumentState.new (parse : String → Option Node) (source : String) :
    Option DocumentState :=
  (parse source).map (fun tree =>
    ⟨source, tree, ⟨extract_symbols tree source⟩, extract_diagnostics tree source⟩)

/-- Models `DocumentState::reparse_full`: the rope is replaced from the new
source text first; the tree, symbol table and diagnostics are replaced only
when the parser produces a tree. -/
def DocumentState.reparse_full (parse : String → Option Node)
    (d : DocumentState) (source : String) : DocumentState :=
  let d := { d with rope := source }
  match parse source with
  | some new_tree =>
    { d with
      diagnostics := extract_diagnostics new_tree source
      symbol_table := ⟨extract_symbols new_tree source⟩
      tree := new_tree }
  | none => d

/-! ## `handlers/goto_type_definition.rs`: the object search order -/

/-- The store iteration of `handle_goto_type_definition` (lines 35-46):
entries in order, skipping the current URI, returning at the first table that
knows the object. -/
def storeLoop (cur_uri object_name : String) :
    List (String × DocumentSymbolTable) → Option (String × AlSymbol)
  | [] => none
  | e :: es =>
    if e.1 = cur_uri then storeLoop cur_uri object_name es
    else
      match e.2.find_object_by_name object_name with
      | some obj => some (e.1, obj)
      | none => storeLoop cur_uri object_name es

/-- Models the search of `handle_goto_type_definition` (lines 26-46): the
current document's table first, then every other entry of the store in order,
skipping the current URI. -/
def goto_type_search (cur_uri : String) (cur : DocumentSymbolTable)
    (docs : List (String × DocumentSymbolTable)) (object_name : String) :
    Option (String × AlSymbol) :=
  match cur.find_object_by_name object_name with
  | some obj => some (cur_uri, obj)
  | none => storeLoop cur_uri object_name docs

/-! ## `handlers/completion.rs`: byte-accurate model of `extract_prefix` -/

/-- The UTF-8 byte length of a string (models `str::len`). -/
def utf8Len (s : String) : Nat :=
  (s.data.map Char.utf8Size).sum

/-- The characters making up the byte range `[0, n)` of the encoded text;
`none` when `n` is not a character boundary (a Rust byte slice at such an
index panics). -/
def takeBytes : List Char → Nat → Option (List Char)
  | _, 0 => some []
  | [], _ + 1 => none
  | c :: cs, n + 1 =>
    if c.utf8Size ≤ n + 1 then (takeBytes cs (n + 1 - c.utf8Size)).map (c :: ·)
    else none

/-- Models `char::is_alphanumeric` on the ASCII range (exact there; the
theorems below apply it to ASCII text only). -/
def rust_char_is_alphanumeric (c : Char) : Bool :=
  c.isAlphanum

/-- The negation of the predicate passed to `rfind` in `extract_prefix`. -/
def wordChar (c : Char) : Bool :=
  rust_char_is_alphanumeric c || c = '_'

/-- Models `str::rfind(pred)`: the byte index of the last character failing
`wordChar`, together with that character (`pos` is the byte index of the head
of the remaining list; `acc` the best match so far). -/
def lastNonWord (pos : Nat) (acc : Option (Nat × Char)) :
    List Char → Option (Nat × Char)
  | [] => acc
  | c :: cs =>
    lastNonWord (pos + c.utf8Size)
      (if wordChar c then acc else some (pos, c)) cs

/-- Models `extract_prefix` from `handlers/completion.rs` at the byte level.
`none` models a panic: `&source[..m]` panics when `m` is not a character
boundary, and `&before[start..]` panics when `start = i + 1` lands inside the
multi-byte character found at byte index `i`. -/
def extract_prefix_fn (source : String) (byte_offset : Nat) : Option String :=
  let m := min byte_offset (utf8Len source)
  match takeBytes source.data m with
  | none => none
  | some before =>
    match lastNonWord 0 none before with
    | none => some ⟨before⟩
    | some (i, c) =>
      if c.utf8Size = 1 then
        match takeBytes before (i + 1) with
        | some pre => some ⟨before.drop pre.length⟩
        | none => none
      else none

/-! ## Concrete parse trees

The trees below mirror the CSTs the AL tree-sitter grammar produces on the
cited test sources (object keywords, `begin`/`end` and `var` are implicit in
span boundaries and do not appear as children, cf. spec section 4.1). -/

/-- `codeunit 50100 Test { procedure Hello() begin end; }` over six lines. -/
def src1 : String :=
  "codeunit 50100 Test\n\x7b\n    procedure Hello()\n    begin\n    end;\n\x7d"

def nHello1 : Node := .mk 6 "identifier" true (some "name") 36 41 ⟨2, 14⟩ ⟨2, 19⟩ false []

def nParams1 : Node := .mk 7 "parameter_list" true (some "parameters") 41 43 ⟨2, 19⟩ ⟨2, 21⟩ false []

def nBlock1 : Node := .mk 8 "block" true none 48 61 ⟨3, 4⟩ ⟨4, 7⟩ false []

def nSemi1 : Node := .mk 9 ";" false none 61 62 ⟨4, 7⟩ ⟨4, 8⟩ false []

def nProcDecl1 : Node :=
  .mk 5 "procedure_declaration" true none 26 62 ⟨2, 4⟩ ⟨4, 8⟩ false
    [nHello1, nParams1, nBlock1, nSemi1]

def nInt1 : Node := .mk 2 "integer_literal" true none 9 14 ⟨0, 9⟩ ⟨0, 14⟩ false []

def nTest1 : Node := .mk 3 "identifier" true none 15 19 ⟨0, 15⟩ ⟨0, 19⟩ false []

def nLb1 : Node := .mk 4 "\x7b" false none 20 21 ⟨1, 0⟩ ⟨1, 1⟩ false []

def nRb1 : Node := .mk 10 "\x7d" false none 63 64 ⟨5, 0⟩ ⟨5, 1⟩ false []

def nCu1 : Node :=
  .mk 1 "codeunit_declaration" true none 0 64 ⟨0, 0⟩ ⟨5, 1⟩ false
    [nInt1, nTest1, nLb1, nProcDecl1, nRb1]

def tree1 : Node := .mk 0 "source_file" true none 0 64 ⟨0, 0⟩ ⟨5, 1⟩ false [nCu1]

def table1 : DocumentSymbolTable := ⟨extract_symbols tree1 src1⟩

/-- The symbol the extractor produces for `procedure Hello()`. -/
def helloSym : AlSymbol :=
  .mk "Hello" .Procedure none 26 62 ⟨2, 4⟩ ⟨4, 8⟩ [] []

example : extract_symbols tree1 src1 =
    [.mk "Test" (.Object .Codeunit) (some "codeunit") 0 64 ⟨0, 0⟩ ⟨5, 1⟩ []
      [helloSym]] := rfl

/-! ## C4: go-to-definition self-navigation -/

/-- C4: the claim states that resolution never returns a result when the
offset lies on a symbol's own defining name.  The code's guard
(navigation.rs:107, "Don't resolve to self") compares the identifier node's
span against the resolved symbol's span — but the symbol's span is the whole
declaration, not the name, so the guard never fires on a real defining
occurrence.  At offset 36 of `src1` (the defining `Hello`), the context is a
definition (`is_definition = true`), yet `resolve_at_offset` returns the
procedure symbol, contradicting the claim. -/
theorem C4_self_navigation_code_bug :
    (identifier_context_at_offset tree1 src1 table1 36).map
        IdentifierContext.is_definition = some true ∧
    resolve_at_offset tree1 src1 table1 36 = some ⟨helloSym, "Hello"⟩ :=
  ⟨rfl, rfl⟩

/-! ## C6: state retention on parse failure in `reparse_full` -/

/-- A parser stub that fails on every input (the CST builder producing no
tree). -/
def parseFailFn : String → Option Node := fun _ => none

/-- The document prior to the failing `didChange` update. -/
def doc1 : DocumentState :=
  ⟨src1, tree1, ⟨extract_symbols tree1 src1⟩, extract_diagnostics tree1 src1⟩

/-- The replacement text of the failing update (its parse yields no tree). -/
def badSrc : String := "codeunit 50100"

/-- C6: the claim states that on parse failure the prior rope, tree, symbol
table and diagnostics are all retained, so rope and tree still describe the
same source text.  `reparse_full` (document.rs:80) assigns
`self.rope = Rope::from_str(source)` before checking whether the parser
produced a tree: on failure the rope holds the new text while the tree,
symbol table and diagnostics still describe the old one. -/
theorem C6_reparse_rope_desync_code_bug :
    (DocumentState.reparse_full parseFailFn doc1 badSrc).rope = badSrc ∧
    (DocumentState.reparse_full parseFailFn doc1 badSrc).tree = doc1.tree ∧
    (DocumentState.reparse_full parseFailFn doc1 badSrc).symbol_table
      = doc1.symbol_table ∧
    (DocumentState.reparse_full parseFailFn doc1 badSrc).diagnostics
      = doc1.diagnostics ∧
    doc1.rope ≠ badSrc :=
  ⟨rfl, rfl, rfl, rfl, by decide⟩

/-! ## C1: the implements list of an object symbol -/

/-- `codeunit 50200 MyCodeunit implements IFoo, IBar { }` over three lines. -/
def src2 : String :=
  "codeunit 50200 MyCodeunit implements IFoo, IBar\n\x7b\n\x7d"

def nIFoo2 : Node := .mk 24 "identifier" true none 37 41 ⟨0, 37⟩ ⟨0, 41⟩ false []

def nComma2 : Node := .mk 25 "," false none 41 42 ⟨0, 41⟩ ⟨0, 42⟩ false []

def nIBar2 : Node := .mk 26 "identifier" true none 43 47 ⟨0, 43⟩ ⟨0, 47⟩ false []

def nImpl2 : Node :=
  .mk 23 "implements_clause" true none 26 47 ⟨0, 26⟩ ⟨0, 47⟩ false
    [nIFoo2, nComma2, nIBar2]

def nInt2 : Node := .mk 21 "integer_literal" true none 9 14 ⟨0, 9⟩ ⟨0, 14⟩ false []

def nName2 : Node := .mk 22 "identifier" true none 15 25 ⟨0, 15⟩ ⟨0, 25⟩ false []

def nLb2 : Node := .mk 27 "\x7b" false none 48 49 ⟨1, 0⟩ ⟨1, 1⟩ false []

def nRb2 : Node := .mk 28 "\x7d" false none 50 51 ⟨2, 0⟩ ⟨2, 1⟩ false []

def nCu2 : Node :=
  .mk 20 "codeunit_declaration" true none 0 51 ⟨0, 0⟩ ⟨2, 1⟩ false
    [nInt2, nName2, nImpl2, nLb2, nRb2]

theorem filter_map_eq_filterMap {α β : Type} (P : α → Prop) [DecidablePred P]
    (f : α → β) (l : List α) :
    (l.filter (fun x => decide (P x))).map f
      = l.filterMap (fun x => if P x then some (f x) else none) := by
  induction l with
  | nil => rfl
  | cons a as ih =>
    by_cases h : P a <;> simp [List.filter_cons, List.filterMap_cons, h, ih]

/-- C1: the Object symbol produced for an object declaration carries the
implements clause's identifiers, in declaration order, as its `implements`
list, and the empty list when the declaration has no implements clause.
(The `implements` extraction is modelled from the spec; it is missing from the
provided `ast.rs`, which `symbols.rs` and its tests contradict.) -/
theorem C1_implements_extraction (source : String) (n : Node)
    (kind : AlObjectKind) (sym : AlSymbol)
    (h : extract_object_symbol source n kind = some sym) :
    (∀ clause, n.children.find? (fun c => c.kind = "implements_clause") = some clause →
      sym.implements = clause.namedChildren.filterMap (fun c =>
        if identKind c then some (extract_name source c) else none)) ∧
    (n.children.find? (fun c => c.kind = "implements_clause") = none →
      sym.implements = []) := by
  unfold extract_object_symbol at h
  cases hn : find_object_name source n with
  | none => rw [hn] at h; exact Option.noConfusion h
  | some nm =>
    rw [hn] at h
    have hx := Option.some.inj h
    have hsym : sym.implements = extract_implements source n := by
      subst hx; rfl
    constructor
    · intro clause hclause
      calc sym.implements = extract_implements source n := hsym
        _ = (clause.namedChildren.filter (fun c => decide (identKind c))).map
              (extract_name source) := by
            unfold extract_implements; rw [hclause]; rfl
        _ = clause.namedChildren.filterMap (fun c =>
              if identKind c then some (extract_name source c) else none) :=
            filter_map_eq_filterMap identKind (extract_name source) _
    · intro hclause
      rw [hsym]
      unfold extract_implements
      rw [hclause]

/-- C1 witness: on the `implements IFoo, IBar` fixture the list is
`["IFoo", "IBar"]`; on a codeunit with no implements clause it is `[]`. -/
theorem C1_implements_extraction_witness :
    (∃ sym, extract_object_symbol src2 nCu2 .Codeunit = some sym ∧
      sym.implements = ["IFoo", "IBar"]) ∧
    (∃ sym, extract_object_symbol src1 nCu1 .Codeunit = some sym ∧
      sym.implements = []) := by
  refine ⟨⟨_, rfl, ?_⟩, ⟨_, rfl, ?_⟩⟩
  · exact ((C1_implements_extraction src2 nCu2 .Codeunit _ rfl).1 nImpl2 rfl).trans rfl
  · exact (C1_implements_extraction src1 nCu1 .Codeunit _ rfl).2 rfl

/-! ## C2: scoped lookup against its specification -/

/-- Spec-side: the two layers searched inside the innermost containing object
(spec sections 4.3 and 8).  When the offset falls inside a member of the
object (a procedure or trigger — other member kinds have no children, so
their layer is empty), that member's children (parameters and locals) form
the first layer; the object's direct members form the second; `F` is the
fall-back (`lookup(name)`).  The search stops at the first non-empty layer,
returning all declarations of the name in that layer. -/
def specLayers (key : String) (o : Nat) (F : List AlSymbol) (obj : AlSymbol) :
    List AlSymbol :=
  let procLayer : List AlSymbol :=
    match obj.children.find? (fun c => c.start_byte ≤ o ∧ o ≤ c.end_byte) with
    | some member =>
      member.children.filter (fun l => rust_to_lowercase l.name = key)
    | none => ([] : List AlSymbol)
  if procLayer.isEmpty then
    let memberLayer : List AlSymbol :=
      obj.children.filter (fun c => rust_to_lowercase c.name = key)
    if memberLayer.isEmpty then F else memberLayer
  else procLayer

/-- Spec-side reading of `lookup_in_scope`: traverse into the innermost
object whose span contains the offset and search its layers; when no object
contains the offset, the result equals `lookup(name)`. -/
def lookup_in_scope_spec (t : DocumentSymbolTable) (name : String) (o : Nat) :
    List AlSymbol :=
  match t.symbols.find? (fun s => s.start_byte ≤ o ∧ o ≤ s.end_byte) with
  | some obj => specLayers (rust_to_lowercase name) o (t.lookup name) obj
  | none => t.lookup name

/-- Sibling byte spans strictly separated in source order (as the extractor
produces for sibling declarations). -/
def SpansSeparated (l : List AlSymbol) : Prop :=
  l.Pairwise (fun a b => a.end_byte < b.start_byte)

instance (l : List AlSymbol) : Decidable (SpansSeparated l) := by
  unfold SpansSeparated; infer_instance

theorem find?_cons_pos {α : Type} (p : α → Bool) (a : α) (l : List α)
    (h : p a = true) : (a :: l).find? p = some a := by
  simp [List.find?_cons, h]

theorem find?_cons_neg {α : Type} (p : α → Bool) (a : α) (l : List α)
    (h : p a = false) : (a :: l).find? p = l.find? p := by
  simp [List.find?_cons, h]

theorem localsSearch_none (key : String) (o : Nat) (cs : List AlSymbol)
    (h : ∀ c ∈ cs, ¬(c.start_byte ≤ o ∧ o ≤ c.end_byte)) :
    localsSearch key o cs [] = none := by
  induction cs with
  | nil => rfl
  | cons c cs ih =>
    unfold localsSearch
    rw [if_neg (h c (List.mem_cons_self c cs))]
    exact ih (fun x hx => h x (List.mem_cons_of_mem c hx))

theorem localsSearch_eq (key : String) (o : Nat) (cs : List AlSymbol)
    (hsep : SpansSeparated cs) :
    localsSearch key o cs [] =
      match cs.find? (fun c => c.start_byte ≤ o ∧ o ≤ c.end_byte) with
      | some c =>
        let m := c.children.filter (fun l => rust_to_lowercase l.name = key)
        if m.isEmpty then none else some m
      | none => none := by
  induction cs with
  | nil => rfl
  | cons c cs ih =>
    rcases List.pairwise_cons.mp hsep with ⟨hrel, hsep'⟩
    by_cases hc : c.start_byte ≤ o ∧ o ≤ c.end_byte
    · unfold localsSearch
      rw [if_pos hc, find?_cons_pos
        (fun c => decide (c.start_byte ≤ o ∧ o ≤ c.end_byte)) c cs
        (decide_eq_true hc)]
      simp only [List.nil_append]
      cases hm : (c.children.filter
          (fun l => rust_to_lowercase l.name = key)).isEmpty with
      | true =>
        have hm' : c.children.filter
            (fun l => rust_to_lowercase l.name = key) = [] :=
          List.isEmpty_iff.mp hm
        rw [hm']
        simp only [List.isEmpty_nil, if_true]
        exact localsSearch_none key o cs (fun x hx hcon =>
          absurd hcon.1 (by have := hrel x hx; omega))
      | false => simp only [hm, Bool.false_eq_true, if_false]
    · unfold localsSearch
      rw [if_neg hc, find?_cons_neg
        (fun c => decide (c.start_byte ≤ o ∧ o ≤ c.end_byte)) c cs
        (decide_eq_false hc)]
      exact ih hsep'

theorem scopeSearch_none (key : String) (o : Nat) (ss : List AlSymbol)
    (h : ∀ s ∈ ss, ¬(s.start_byte ≤ o ∧ o ≤ s.end_byte)) :
    scopeSearch key o ss = none := by
  induction ss with
  | nil => rfl
  | cons s ss ih =>
    unfold scopeSearch
    rw [if_neg (h s (List.mem_cons_self s ss))]
    exact ih (fun x hx => h x (List.mem_cons_of_mem s hx))

theorem scope_spec_equiv (key : String) (o : Nat) (F : List AlSymbol)
    (l : List AlSymbol) (hsep : SpansSeparated l)
    (hch : ∀ s ∈ l, SpansSeparated s.children) :
    (match scopeSearch key o l with
     | some r => r
     | none => F) =
      (match l.find? (fun s => s.start_byte ≤ o ∧ o ≤ s.end_byte) with
       | some obj => specLayers key o F obj
       | none => F) := by
  induction l with
  | nil => rfl
  | cons s ss ih =>
    rcases List.pairwise_cons.mp hsep with ⟨hrel, hsep'⟩
    by_cases hc : s.start_byte ≤ o ∧ o ≤ s.end_byte
    · rw [find?_cons_pos
        (fun s => decide (s.start_byte ≤ o ∧ o ≤ s.end_byte)) s ss
        (decide_eq_true hc)]
      unfold scopeSearch
      rw [if_pos hc, localsSearch_eq key o s.children
        (hch s (List.mem_cons_self s ss))]
      simp only [specLayers]
      have hAfterMiss :
          (match
            (if (s.children.filter
                  (fun c => rust_to_lowercase c.name = key)).isEmpty
             then scopeSearch key o ss
             else some (s.children.filter
                (fun c => rust_to_lowercase c.name = key))) with
           | some r => r
           | none => F) =
            (if (s.children.filter
                  (fun c => rust_to_lowercase c.name = key)).isEmpty
             then F
             else s.children.filter
                (fun c => rust_to_lowercase c.name = key)) := by
        cases hobj : (s.children.filter
            (fun c => rust_to_lowercase c.name = key)).isEmpty with
        | true =>
          simp only [if_true]
          rw [scopeSearch_none key o ss (fun x hx hcon =>
            absurd hcon.1 (by have := hrel x hx; omega))]
        | false => simp only [Bool.false_eq_true, if_false]
      cases hfind : s.children.find?
          (fun c => c.start_byte ≤ o ∧ o ≤ c.end_byte) with
      | some member =>
        dsimp only
        cases hm : (member.children.filter
            (fun l => rust_to_lowercase l.name = key)).isEmpty with
        | true =>
          simp only [hm, if_true]
          exact hAfterMiss
        | false => simp only [hm, Bool.false_eq_true, if_false]
      | none =>
        dsimp only
        simp only [List.isEmpty_nil, if_true]
        exact hAfterMiss
    · rw [find?_cons_neg
        (fun s => decide (s.start_byte ≤ o ∧ o ≤ s.end_byte)) s ss
        (decide_eq_false hc)]
      unfold scopeSearch
      rw [if_neg hc]
      exact ih hsep' (fun x hx => hch x (List.mem_cons_of_mem s hx))

/-- C2: `lookup_in_scope` computes exactly its specification: the innermost
object containing the offset is searched — the enclosing member's
locals+parameters first, then the object's direct members, stopping at the
first non-empty layer and returning all matching declarations of that layer —
and on a complete miss (or when no object contains the offset) the result
equals `lookup(name)`.  The sibling-span separation hypotheses hold for
extractor output, where sibling declarations occupy disjoint source ranges. -/
theorem C2_lookup_in_scope_spec (t : DocumentSymbolTable) (name : String)
    (o : Nat) (htop : SpansSeparated t.symbols)
    (hch : ∀ s ∈ t.symbols, SpansSeparated s.children) :
    t.lookup_in_scope name o = lookup_in_scope_spec t name o := by
  unfold DocumentSymbolTable.lookup_in_scope lookup_in_scope_spec
  exact scope_spec_equiv (rust_to_lowercase name) o (t.lookup name)
    t.symbols htop hch

/-- Symbols of the scoped-resolution fixture (spec scenario S1): a codeunit
`Test` with global `GlobalVar: Integer` and procedure `DoWork` declaring local
`LocalVar: Text`. -/
def lvSym : AlSymbol := .mk "LocalVar" .Variable (some "Text") 88 101 ⟨7, 8⟩ ⟨7, 21⟩ [] []

def gvSym : AlSymbol :=
  .mk "GlobalVar" .Variable (some "Integer") 34 52 ⟨3, 8⟩ ⟨3, 26⟩ [] []

def dwSym : AlSymbol := .mk "DoWork" .Procedure none 59 120 ⟨5, 4⟩ ⟨9, 8⟩ [] [lvSym]

def testSym : AlSymbol :=
  .mk "Test" (.Object .Codeunit) (some "codeunit") 0 122 ⟨0, 0⟩ ⟨10, 1⟩ []
    [gvSym, dwSym]

def table3 : DocumentSymbolTable := ⟨[testSym]⟩

/-- C2 witness: inside `DoWork` (offset 95) the hypotheses hold and the code
agrees with the specification; the local layer shadows, the member layer
serves the global. -/
theorem C2_lookup_in_scope_spec_witness :
    SpansSeparated table3.symbols ∧
    (∀ s ∈ table3.symbols, SpansSeparated s.children) ∧
    table3.lookup_in_scope "LocalVar" 95 = lookup_in_scope_spec table3 "LocalVar" 95 ∧
    table3.lookup_in_scope "LocalVar" 95 = [lvSym] ∧
    table3.lookup_in_scope "GlobalVar" 95 = [gvSym] :=
  ⟨by decide, by decide,
    C2_lookup_in_scope_spec table3 "LocalVar" 95 (by decide) (by decide),
    rfl, rfl⟩

/-! ## C7: case- and quote-invariance of identifier matching -/

theorem dropLeading_cons_ne (q c : Char) (cs : List Char) (h : c ≠ q) :
    dropLeading q (c :: cs) = c :: cs := by
  unfold dropLeading
  rw [if_neg h]

theorem string_mk_eq (d : List Char) (s : String) (h : d = s.data) :
    (⟨d⟩ : String) = s := by
  cases s with
  | mk e =>
    simp only [String.data] at h
    subst h
    rfl

theorem trim_quote_wrap (s x : String) (h1 : s.data.head? ≠ some '"')
    (h2 : s.data.getLast? ≠ some '"')
    (hx : x.data = '"' :: s.data ++ ['"']) : trim_matches_quote x = s := by
  unfold trim_matches_quote
  rw [hx]
  have hrev : ('"' :: s.data ++ ['"']).reverse = '"' :: (s.data.reverse ++ ['"']) := by
    simp
  rw [hrev]
  rw [show dropLeading '"' ('"' :: (s.data.reverse ++ ['"']))
      = dropLeading '"' (s.data.reverse ++ ['"']) from by simp [dropLeading]]
  apply string_mk_eq
  cases hs : s.data.reverse with
  | nil =>
    have hnil : s.data = [] := by
      have := congrArg List.reverse hs
      simpa using this
    rw [hnil]
    rfl
  | cons r rs =>
    have hr : r ≠ '"' := by
      intro he
      apply h2
      rw [← List.head?_reverse, hs, he]
      rfl
    rw [List.cons_append, dropLeading_cons_ne '"' r (rs ++ ['"']) hr]
    have hsd : s.data = rs.reverse ++ [r] := by
      have := congrArg List.reverse hs
      simpa using this
    have hback : (r :: (rs ++ ['"'])).reverse = '"' :: s.data := by
      rw [hsd]
      simp
    rw [hback]
    rw [show dropLeading '"' ('"' :: s.data) = dropLeading '"' s.data from by
      simp [dropLeading]]
    cases hd : s.data with
    | nil => rfl
    | cons a as =>
      have ha : a ≠ '"' := by
        intro he
        apply h1
        rw [hd, he]
        rfl
      rw [dropLeading_cons_ne '"' a as ha]

/-- C7: identifier matching is invariant under letter case and under
quote-vs-bare spelling.  (i) `lookup` and (ii) `lookup_in_scope` agree on any
two queries with the same lowercasing (`MyVar` and `myvar` denote the same
name); (iii) a `quoted_identifier` node whose text wraps `s` in double quotes
extracts to the same name as a bare `identifier` node with text `s` (quoted
text is stored with the surrounding quotes stripped); (iv) resolution depends
on the identifier node only through its extracted name and byte span, so
swapping a bare occurrence for its quoted form (or changing its case, which
leaves the extracted lowercased name unchanged) resolves to the same
definition. -/
theorem C7_case_quote_invariance :
    (∀ (t : DocumentSymbolTable) (n₁ n₂ : String),
      rust_to_lowercase n₁ = rust_to_lowercase n₂ →
      t.lookup n₁ = t.lookup n₂) ∧
    (∀ (t : DocumentSymbolTable) (n₁ n₂ : String) (o : Nat),
      rust_to_lowercase n₁ = rust_to_lowercase n₂ →
      t.lookup_in_scope n₁ o = t.lookup_in_scope n₂ o) ∧
    (∀ (src₁ src₂ : String) (m₁ m₂ : Node) (s : String),
      m₁.kind = "identifier" → node_text src₁ m₁ = s →
      m₂.kind = "quoted_identifier" →
      (node_text src₂ m₂).data = '"' :: s.data ++ ['"'] →
      s.data.head? ≠ some '"' → s.data.getLast? ≠ some '"' →
      extract_name src₂ m₂ = extract_name src₁ m₁) ∧
    (∀ (t₁ t₂ : Node) (src₁ src₂ : String) (tab : DocumentSymbolTable)
      (o : Nat) (m₁ m₂ : Node),
      node_at_offset t₁ o = some m₁ → node_at_offset t₂ o = some m₂ →
      identKind m₁ → identKind m₂ →
      extract_name src₁ m₁ = extract_name src₂ m₂ →
      m₁.startByte = m₂.startByte → m₁.endByte = m₂.endByte →
      resolve_at_offset t₁ src₁ tab o = resolve_at_offset t₂ src₂ tab o) := by
  refine ⟨?_, ?_, ?_, ?_⟩
  · intro t n₁ n₂ h
    unfold DocumentSymbolTable.lookup
    rw [h]
  · intro t n₁ n₂ o h
    unfold DocumentSymbolTable.lookup_in_scope
    rw [h]
    cases scopeSearch (rust_to_lowercase n₂) o t.symbols with
    | some r => rfl
    | none =>
      show t.lookup n₁ = t.lookup n₂
      unfold DocumentSymbolTable.lookup
      rw [h]
  · intro src₁ src₂ m₁ m₂ s hk₁ ht₁ hk₂ ht₂ h1 h2
    unfold extract_name
    rw [if_pos hk₂, if_neg (by rw [hk₁]; decide)]
    rw [ht₁]
    exact trim_quote_wrap s (node_text src₂ m₂) h1 h2 ht₂
  · intro t₁ t₂ src₁ src₂ tab o m₁ m₂ hn₁ hn₂ hi₁ hi₂ hname hsb heb
    unfold resolve_at_offset
    rw [hn₁, hn₂]
    dsimp only
    rw [if_pos hi₁, if_pos hi₂, ← hname, ← hsb, ← heb]

/-- A quoted-identifier node spanning the whole text `"My Var"`. -/
def qNode : Node := .mk 0 "quoted_identifier" true none 0 8 ⟨0, 0⟩ ⟨0, 8⟩ false []

/-- A bare identifier node spanning the whole text `My Var`. -/
def bNode : Node := .mk 1 "identifier" true none 0 6 ⟨0, 0⟩ ⟨0, 6⟩ false []

/-- C7 witness: concrete instances of the four invariance statements. -/
theorem C7_case_quote_invariance_witness :
    table3.lookup "LOCALVAR" = table3.lookup "localvar" ∧
    table3.lookup_in_scope "GLOBALVAR" 95 = table3.lookup_in_scope "globalvar" 95 ∧
    extract_name "\"My Var\"" qNode = extract_name "My Var" bNode ∧
    resolve_at_offset tree1 src1 table1 38 = resolve_at_offset tree1 src1 table1 38 := by
  refine ⟨?_, ?_, ?_, ?_⟩
  · exact C7_case_quote_invariance.1 table3 "LOCALVAR" "localvar" rfl
  · exact C7_case_quote_invariance.2.1 table3 "GLOBALVAR" "globalvar" 95 rfl
  · exact C7_case_quote_invariance.2.2.1 "My Var" "\"My Var\"" bNode qNode "My Var"
      rfl rfl rfl rfl (by decide) (by decide)
  · exact C7_case_quote_invariance.2.2.2 tree1 tree1 src1 src1 table1 38 nHello1 nHello1
      rfl rfl (by decide) (by decide) rfl rfl rfl

/-! ## C10: lookup lowercases but does not strip quotes -/

theorem lowerChar_ne_quote (c : Char) (hc : c ≠ '"') : lowerChar c ≠ '"' := by
  unfold lowerChar
  split <;> first | decide | exact hc

theorem dropLeading_head (q : Char) (l : List Char) :
    (dropLeading q l).head? ≠ some q := by
  induction l with
  | nil => intro h; exact Option.noConfusion h
  | cons c cs ih =>
    unfold dropLeading
    by_cases h : c = q
    · rw [if_pos h]; exact ih
    · rw [if_neg h]
      intro he
      exact h (Option.some.inj he)

theorem dropLeading_suffix (q : Char) (l : List Char) :
    (dropLeading q l) <:+ l := by
  induction l with
  | nil => exact List.suffix_rfl
  | cons c cs ih =>
    unfold dropLeading
    by_cases h : c = q
    · rw [if_pos h]
      exact ih.trans (List.suffix_cons c cs)
    · rw [if_neg h]

theorem getLast?_of_suffix {l₁ l₂ : List Char} (h : l₁ <:+ l₂) (hne : l₁ ≠ []) :
    l₁.getLast? = l₂.getLast? := by
  obtain ⟨pre, rfl⟩ := h
  rw [← List.head?_reverse, ← List.head?_reverse, List.reverse_append]
  cases hr : l₁.reverse with
  | nil => exact absurd (by simpa using congrArg List.reverse hr) hne
  | cons a as => rfl

/-- The extracted name of a quoted identifier never starts or ends with a
double quote (the surrounding quotes were stripped at extraction time). -/
theorem extract_name_quoted_clean (source : String) (n : Node)
    (h : n.kind = "quoted_identifier") :
    (extract_name source n).data.head? ≠ some '"' ∧
    (extract_name source n).data.getLast? ≠ some '"' := by
  unfold extract_name
  rw [if_pos h]
  unfold trim_matches_quote
  constructor
  · exact dropLeading_head '"' _
  · set inner := (dropLeading '"' (node_text source n).data.reverse).reverse
      with hinner
    by_cases hne : dropLeading '"' inner = []
    · rw [hne]
      intro hcon
      exact Option.noConfusion hcon
    · rw [getLast?_of_suffix (dropLeading_suffix '"' inner) hne]
      rw [hinner, ← List.head?_reverse, List.reverse_reverse]
      exact dropLeading_head '"' _

/-- C10: `lookup` lowercases its argument but does not strip double quotes.
(i) A symbol in the table is returned for its bare spelling in any letter
case; (ii) a query whose first character is a double quote matches nothing,
provided no stored name starts with a double quote — which extraction
guarantees, since (iii) the name stored for a quoted identifier carries no
surrounding quotes. -/
theorem C10_lookup_quotes (t : DocumentSymbolTable) (sym : AlSymbol)
    (q : String) :
    (sym ∈ symPreorderList t.symbols →
      rust_to_lowercase q = rust_to_lowercase sym.name →
      sym ∈ t.lookup q) ∧
    (q.data.head? = some '"' →
      (∀ s ∈ symPreorderList t.symbols, s.name.data.head? ≠ some '"') →
      t.lookup q = []) ∧
    (∀ (source : String) (n : Node), n.kind = "quoted_identifier" →
      (extract_name source n).data.head? ≠ some '"' ∧
      (extract_name source n).data.getLast? ≠ some '"') := by
  refine ⟨?_, ?_, fun source n h => extract_name_quoted_clean source n h⟩
  · intro hmem hcase
    unfold DocumentSymbolTable.lookup
    exact List.mem_filter.mpr ⟨hmem, decide_eq_true hcase.symm⟩
  · intro hq hclean
    unfold DocumentSymbolTable.lookup
    apply List.filter_eq_nil_iff.mpr
    intro s hs
    intro hpred
    have heq : rust_to_lowercase s.name = rust_to_lowercase q :=
      of_decide_eq_true hpred
    have hhead := congrArg (fun l : String => l.data.head?) heq
    simp only [rust_to_lowercase, List.head?_map] at hhead
    rw [hq] at hhead
    cases hsn : s.name.data.head? with
    | none => rw [hsn] at hhead; exact Option.noConfusion hhead
    | some c =>
      rw [hsn] at hhead
      have hc : c ≠ '"' := fun he => hclean s hs (by rw [hsn, he])
      have : lowerChar c = lowerChar '"' := Option.some.inj hhead
      rw [show lowerChar '"' = '"' from rfl] at this
      exact lowerChar_ne_quote c hc this

/-- C10 witness: on `table3`, any letter case of `LocalVar` finds the local,
while the quoted spelling finds nothing. -/
theorem C10_lookup_quotes_witness :
    lvSym ∈ table3.lookup "LOCALVAR" ∧
    table3.lookup "\"LocalVar\"" = [] ∧
    extract_name "\"My Var\"" qNode = "My Var" := by
  refine ⟨?_, ?_, rfl⟩
  · exact (C10_lookup_quotes table3 lvSym "LOCALVAR").1
      (List.Mem.tail _ (List.Mem.tail _ (List.Mem.tail _ (List.Mem.head _)))) rfl
  · exact (C10_lookup_quotes table3 lvSym "\"LocalVar\"").2.1 rfl (by decide)

/-! ## C8: go-to-type-definition's object-name extraction -/

/-- The spec's `<Kind> <object-name>` shape for a `type_info`: one of the kind
keywords, a separating space, and an object name that remains non-empty after
trimming whitespace and stripping surrounding quotes. -/
def type_info_spec_form (t : String) : Bool :=
  typeKindList.any (fun k =>
    (k ++ " ").data.isPrefixOf t.data &&
      !(trim_matches_quote
        (rust_trim ⟨t.data.drop (k ++ " ").data.length⟩)).isEmpty)

/-- C8 counterexample: `extract_type_object_name` uses `strip_prefix` without
requiring a separating space, so the type string `RecordId` — not of the
spec's `<Kind> <object-name>` form — still yields the object name `Id`. -/
theorem C8_space_not_required_cex :
    extract_type_object_name "RecordId" = some "Id" ∧
    type_info_spec_form "RecordId" = false :=
  ⟨rfl, rfl⟩

theorem stripPrefixOpt_pos (ti k : String)
    (h : k.data.isPrefixOf ti.data = true) :
    stripPrefixOpt ti k = some ⟨ti.data.drop k.data.length⟩ := by
  unfold stripPrefixOpt
  rw [if_pos h]

theorem stripPrefixOpt_neg (ti k : String)
    (h : k.data.isPrefixOf ti.data = false) :
    stripPrefixOpt ti k = none := by
  unfold stripPrefixOpt
  rw [if_neg (by simp [h])]

theorem typeNameLoop_eq_find (ks : List String) (ti : String) :
    typeNameLoop ks ti =
      match ks.find? (fun k => k.data.isPrefixOf ti.data) with
      | some k =>
        let rest := rust_trim ⟨ti.data.drop k.data.length⟩
        if rest.isEmpty then none
        else
          let name := trim_matches_quote rest
          if name.isEmpty then none else some name
      | none => none := by
  induction ks with
  | nil => rfl
  | cons k ks ih =>
    cases h : k.data.isPrefixOf ti.data with
    | true =>
      rw [find?_cons_pos (fun k => k.data.isPrefixOf ti.data) k ks h]
      unfold typeNameLoop
      rw [stripPrefixOpt_pos ti k h]
    | false =>
      rw [find?_cons_neg (fun k => k.data.isPrefixOf ti.data) k ks h]
      unfold typeNameLoop
      rw [stripPrefixOpt_neg ti k h]
      exact ih

theorem storeLoop_eq_find (cur_uri object_name : String)
    (docs : List (String × DocumentSymbolTable)) :
    storeLoop cur_uri object_name docs =
      ((docs.filter (fun e => e.1 ≠ cur_uri)).find? (fun e =>
        (e.2.find_object_by_name object_name).isSome)).bind (fun e =>
          (e.2.find_object_by_name object_name).map (fun obj => (e.1, obj))) := by
  induction docs with
  | nil => rfl
  | cons e es ih =>
    unfold storeLoop
    by_cases hu : e.1 = cur_uri
    · rw [if_pos hu, List.filter_cons_of_neg (by simp [hu])]
      exact ih
    · rw [if_neg hu, List.filter_cons_of_pos (by simpa using hu)]
      cases hf : e.2.find_object_by_name object_name with
      | some obj =>
        rw [find?_cons_pos _ e _ (by simp [hf])]
        simp [hf]
      | none =>
        rw [find?_cons_neg _ e _ (by simp [hf])]
        exact ih

/-- C8 (amended): a target object name is produced exactly when the trimmed
`type_info` starts — case-sensitively, with no separating space required —
with the first matching kind keyword among Record, Codeunit, Page, Report,
Query, Xmlport, Enum, Interface, and the remainder, after trimming whitespace
and stripping surrounding quotes, is non-empty; in particular every
`<Kind> <object-name>` string yields the (unquoted) object name, while
`Integer` and `Text[100]` yield none.  The object is then looked up by name in
the current document first, then across the store in order, skipping the
current URI. -/
theorem C8_type_definition_amended :
    (∀ ti : String,
      extract_type_object_name ti =
        match typeKindList.find? (fun k =>
            k.data.isPrefixOf (rust_trim ti).data) with
        | some k =>
          let rest := rust_trim ⟨(rust_trim ti).data.drop k.data.length⟩
          if rest.isEmpty then none
          else
            let name := trim_matches_quote rest
            if name.isEmpty then none else some name
        | none => none) ∧
    (extract_type_object_name "Integer" = none ∧
      extract_type_object_name "Text[100]" = none ∧
      extract_type_object_name "Record \"Customer\"" = some "Customer" ∧
      extract_type_object_name "Interface IAddressProvider"
        = some "IAddressProvider") ∧
    (∀ (cur_uri : String) (cur : DocumentSymbolTable)
      (docs : List (String × DocumentSymbolTable)) (name : String)
      (obj : AlSymbol),
      cur.find_object_by_name name = some obj →
      goto_type_search cur_uri cur docs name = some (cur_uri, obj)) ∧
    (∀ (cur_uri : String) (cur : DocumentSymbolTable)
      (docs : List (String × DocumentSymbolTable)) (name : String),
      cur.find_object_by_name name = none →
      goto_type_search cur_uri cur docs name =
        ((docs.filter (fun e => e.1 ≠ cur_uri)).find? (fun e =>
          (e.2.find_object_by_name name).isSome)).bind (fun e =>
            (e.2.find_object_by_name name).map (fun obj => (e.1, obj)))) := by
  refine ⟨?_, ⟨rfl, rfl, rfl, rfl⟩, ?_, ?_⟩
  · intro ti
    unfold extract_type_object_name
    exact typeNameLoop_eq_find typeKindList (rust_trim ti)
  · intro cur_uri cur docs name obj h
    unfold goto_type_search
    rw [h]
  · intro cur_uri cur docs name h
    unfold goto_type_search
    rw [h]
    exact storeLoop_eq_find cur_uri name docs

/-- The interface object symbol of the cross-document fixture. -/
def ifaceSym : AlSymbol :=
  .mk "IAddressProvider" (.Object .Interface) (some "interface") 0 60
    ⟨0, 0⟩ ⟨3, 1⟩ [] []

def tableIFace : DocumentSymbolTable := ⟨[ifaceSym]⟩

/-- C8 witness: concrete instances — extraction on `Record Customer`, and the
current-document-first / then-across-the-store search order. -/
theorem C8_type_definition_amended_witness :
    extract_type_object_name "Record Customer" = some "Customer" ∧
    goto_type_search "uriA" table3 [("uriA", table3), ("uriB", tableIFace)]
      "Test" = some ("uriA", testSym) ∧
    goto_type_search "uriA" table3 [("uriA", table3), ("uriB", tableIFace)]
      "IAddressProvider" = some ("uriB", ifaceSym) := by
  refine ⟨?_, ?_, ?_⟩
  · exact (C8_type_definition_amended.1 "Record Customer").trans rfl
  · exact C8_type_definition_amended.2.2.1 "uriA" table3
      [("uriA", table3), ("uriB", tableIFace)] "Test" testSym rfl
  · exact (C8_type_definition_amended.2.2.2 "uriA" table3
      [("uriA", table3), ("uriB", tableIFace)] "IAddressProvider" rfl).trans rfl

/-! ## C9: completion's word-prefix extraction -/

/-- C9 counterexample: byte offset 1 of the two-byte text `é` lies within the
text but inside a multi-byte character, so `&source[..1]` panics (modelled as
`none`); extraction does not terminate normally for every byte offset. -/
theorem C9_non_ascii_panic_cex :
    extract_prefix_fn "é" 1 = none ∧ 1 ≤ utf8Len "é" :=
  ⟨rfl, by decide⟩

theorem takeBytes_ascii (cs : List Char) (h1 : ∀ c ∈ cs, c.utf8Size = 1) :
    ∀ n, n ≤ cs.length → takeBytes cs n = some (cs.take n) := by
  induction cs with
  | nil =>
    intro n hn
    cases n with
    | zero => rfl
    | succ m => simp at hn
  | cons c cs ih =>
    intro n hn
    cases n with
    | zero => rfl
    | succ m =>
      unfold takeBytes
      rw [h1 c (List.mem_cons_self c cs)]
      rw [if_pos (by omega)]
      rw [show m + 1 - 1 = m from rfl]
      rw [ih (fun x hx => h1 x (List.mem_cons_of_mem c hx)) m (by simpa using hn)]
      rfl

theorem sum_utf8_ones (l : List Char) (h : ∀ c ∈ l, c.utf8Size = 1) :
    (l.map Char.utf8Size).sum = l.length := by
  induction l with
  | nil => rfl
  | cons c cs ih =>
    simp only [List.map_cons, List.sum_cons, List.length_cons,
      h c (List.mem_cons_self c cs),
      ih (fun x hx => h x (List.mem_cons_of_mem c hx))]
    omega

/-- Spec-side last non-word character of a character list, with its index. -/
def lastNW : List Char → Option (Nat × Char)
  | [] => none
  | c :: cs =>
    match lastNW cs with
    | some (i, d) => some (i + 1, d)
    | none => if wordChar c then none else some (0, c)

theorem lastNonWord_eq (cs : List Char) (h1 : ∀ c ∈ cs, c.utf8Size = 1) :
    ∀ (pos : Nat) (acc : Option (Nat × Char)),
    lastNonWord pos acc cs =
      match lastNW cs with
      | some (i, d) => some (pos + i, d)
      | none => acc := by
  induction cs with
  | nil => intro pos acc; rfl
  | cons c cs ih =>
    intro pos acc
    unfold lastNonWord lastNW
    rw [h1 c (List.mem_cons_self c cs)]
    rw [ih (fun x hx => h1 x (List.mem_cons_of_mem c hx))]
    cases hl : lastNW cs with
    | some pr =>
      obtain ⟨i, d⟩ := pr
      dsimp
      rw [show pos + 1 + i = pos + (i + 1) from by omega]
    | none =>
      cases hw : wordChar c with
      | true => simp [hw]
      | false => simp [hw]

theorem lastNW_none_all (cs : List Char) (h : lastNW cs = none) :
    ∀ c ∈ cs, wordChar c = true := by
  induction cs with
  | nil => intro c hc; cases hc
  | cons c cs ih =>
    unfold lastNW at h
    cases hl : lastNW cs with
    | some pr => rw [hl] at h; exact Option.noConfusion h
    | none =>
      rw [hl] at h
      cases hw : wordChar c with
      | true =>
        intro x hx
        cases hx with
        | head => exact hw
        | tail _ hm => exact ih hl x hm
      | false => rw [hw] at h; simp at h

theorem takeWhile_append_of_not {p : Char → Bool} {l₁ : List Char}
    (l₂ : List Char) (h : ∃ x ∈ l₁, p x = false) :
    (l₁ ++ l₂).takeWhile p = l₁.takeWhile p := by
  induction l₁ with
  | nil =>
    obtain ⟨x, hx, _⟩ := h
    cases hx
  | cons a as ih =>
    cases hp : p a with
    | true =>
      simp only [List.cons_append, List.takeWhile_cons, hp]
      have : ∃ x ∈ as, p x = false := by
        obtain ⟨x, hx, hpx⟩ := h
        cases hx with
        | head => rw [hp] at hpx; exact absurd hpx (by simp)
        | tail _ hm => exact ⟨x, hm, hpx⟩
      rw [ih this]
    | false =>
      simp only [List.cons_append, List.takeWhile_cons, hp]
      rfl

theorem takeWhile_append_all {p : Char → Bool} {l₁ : List Char}
    (l₂ : List Char) (h : ∀ x ∈ l₁, p x = true) :
    (l₁ ++ l₂).takeWhile p = l₁ ++ l₂.takeWhile p := by
  induction l₁ with
  | nil => rfl
  | cons a as ih =>
    simp only [List.cons_append, List.takeWhile_cons,
      h a (List.mem_cons_self a as)]
    rw [ih (fun x hx => h x (List.mem_cons_of_mem a hx))]
    rfl

theorem lastNW_some_spec (cs : List Char) :
    ∀ (i : Nat) (d : Char), lastNW cs = some (i, d) →
    d ∈ cs ∧ wordChar d = false ∧ i + 1 ≤ cs.length ∧
      cs.drop (i + 1) = (cs.reverse.takeWhile wordChar).reverse := by
  induction cs with
  | nil => intro i d h; cases h
  | cons c cs ih =>
    intro i d h
    unfold lastNW at h
    cases hl : lastNW cs with
    | some pr =>
      obtain ⟨j, e⟩ := pr
      rw [hl] at h
      obtain ⟨hi, hd⟩ : j + 1 = i ∧ e = d := by
        have := Option.some.inj h
        exact ⟨congrArg Prod.fst this, congrArg Prod.snd this⟩
      obtain ⟨hmem, hw, hlen, hdrop⟩ := ih j e hl
      subst hi; subst hd
      refine ⟨List.mem_cons_of_mem c hmem, hw, by simpa using hlen, ?_⟩
      rw [List.drop_succ_cons, hdrop, List.reverse_cons]
      rw [takeWhile_append_of_not [c]
        ⟨e, by simpa using hmem, hw⟩]
    | none =>
      rw [hl] at h
      cases hw : wordChar c with
      | true => rw [hw] at h; simp at h
      | false =>
        rw [hw] at h
        obtain ⟨hi, hd⟩ : 0 = i ∧ c = d := by
          have := Option.some.inj h
          exact ⟨congrArg Prod.fst this, congrArg Prod.snd this⟩
        subst hi; subst hd
        refine ⟨List.mem_cons_self c cs, hw, by simp, ?_⟩
        rw [List.drop_succ_cons, List.drop_zero, List.reverse_cons]
        rw [takeWhile_append_all [c] (fun x hx =>
          lastNW_none_all cs hl x (List.mem_reverse.mp hx))]
        simp [List.takeWhile_cons, hw]

/-- C9 (amended): for text of single-byte (ASCII) characters and any byte
offset within it, prefix extraction terminates without panicking and returns
the longest run of `[A-Za-z0-9_]` characters ending at the offset; for
non-ASCII text a byte offset inside a multi-byte character makes the byte
slice panic (see the counterexample), so the claim holds only for ASCII
text. -/
theorem C9_extract_prefix_amended (s : String) (off : Nat)
    (hascii : ∀ c ∈ s.data, c.utf8Size = 1) (hoff : off ≤ utf8Len s) :
    extract_prefix_fn s off =
      some ⟨((s.data.take off).reverse.takeWhile wordChar).reverse⟩ := by
  have hlen : utf8Len s = s.data.length := sum_utf8_ones s.data hascii
  have hmin : min off (utf8Len s) = off := by omega
  unfold extract_prefix_fn
  rw [hmin]
  dsimp only
  rw [takeBytes_ascii s.data hascii off (by omega)]
  have hb : ∀ c ∈ s.data.take off, c.utf8Size = 1 := fun c hc =>
    hascii c (List.mem_of_mem_take hc)
  dsimp only
  rw [lastNonWord_eq (s.data.take off) hb 0 none]
  cases hl : lastNW (s.data.take off) with
  | none =>
    dsimp only
    have hall := lastNW_none_all _ hl
    have : ((s.data.take off).reverse.takeWhile wordChar).reverse
        = s.data.take off := by
      rw [List.takeWhile_eq_self_iff.mpr (fun x hx =>
        hall x (by simpa using hx)), List.reverse_reverse]
    rw [this]
  | some pr =>
    obtain ⟨i, d⟩ := pr
    obtain ⟨hmem, hw, hlen2, hdrop⟩ := lastNW_some_spec _ i d hl
    dsimp only
    rw [Nat.zero_add, if_pos (hb d hmem),
      takeBytes_ascii (s.data.take off) hb (i + 1) hlen2]
    dsimp only
    rw [List.length_take, Nat.min_eq_left hlen2, hdrop]

/-- C9 witness: on ASCII text the extracted prefix is the longest word run
ending at the offset. -/
theorem C9_extract_prefix_amended_witness :
    (∀ c ∈ ("foo bar_9" : String).data, c.utf8Size = 1) ∧
    9 ≤ utf8Len "foo bar_9" ∧
    extract_prefix_fn "foo bar_9" 9 = some "bar_9" :=
  ⟨by decide, by decide,
    (C9_extract_prefix_amended "foo bar_9" 9 (by decide) (by decide)).trans rfl⟩

/-! ## C3: find-all-references — tree traversal lemmas -/

theorem self_mem_nwp (p : Option Node) (n : Node) :
    (p, n) ∈ nodesWithParents p n := by
  rw [nodesWithParents_eq]
  exact List.mem_cons_self _ _

theorem mem_nwpList (p : Option Node) (l : List Node) (x : Option Node × Node)
    (c : Node) (hc : c ∈ l) (hx : x ∈ nodesWithParents p c) :
    x ∈ nodesWithParentsList p l := by
  induction l with
  | nil => cases hc
  | cons a as ih =>
    unfold nodesWithParentsList
    cases hc with
    | head => exact List.mem_append_left _ hx
    | tail _ hm => exact List.mem_append_right _ (ih hm)

theorem mem_nwpList_ex (p : Option Node) (l : List Node)
    (x : Option Node × Node) (hx : x ∈ nodesWithParentsList p l) :
    ∃ c ∈ l, x ∈ nodesWithParents p c := by
  induction l with
  | nil => cases hx
  | cons a as ih =>
    unfold nodesWithParentsList at hx
    rcases List.mem_append.mp hx with h | h
    · exact ⟨a, List.mem_cons_self a as, h⟩
    · obtain ⟨c, hc, hm⟩ := ih h
      exact ⟨c, List.mem_cons_of_mem a hc, hm⟩

theorem nwp_child (root : Node) : ∀ (q : Option Node),
    ∀ pr ∈ nodesWithParents q root, ∀ c ∈ pr.2.children,
      (some pr.2, c) ∈ nodesWithParents q root := by
  induction root using Node.strongInd with
  | h i k nm f sb eb sp ep ms cs ih =>
    intro q pr hpr c hc
    rw [nodesWithParents_eq] at hpr ⊢
    cases hpr with
    | head =>
      exact List.mem_cons_of_mem _
        (mem_nwpList _ cs _ c hc (self_mem_nwp _ c))
    | tail _ hm =>
      obtain ⟨d, hd, hmem⟩ := mem_nwpList_ex _ cs pr hm
      exact List.mem_cons_of_mem _
        (mem_nwpList _ cs _ d hd (ih d hd _ pr hmem c hc))

/-- The filter predicate `collect_identifier_nodes` applies. -/
def collectPred (source target : String) (pr : Option Node × Node) : Bool :=
  decide (identKind pr.2 ∧
    rust_to_lowercase (extract_name source pr.2) = target)

theorem collectList_eq (source target : String) (p : Option Node)
    (l : List Node)
    (ih : ∀ c ∈ l, ∀ q, collect_identifier_nodes source target q c
      = (nodesWithParents q c).filter (collectPred source target)) :
    collect_identifier_nodes_list source target p l
      = (nodesWithParentsList p l).filter (collectPred source target) := by
  induction l with
  | nil => rfl
  | cons a as ihl =>
    unfold collect_identifier_nodes_list nodesWithParentsList
    rw [List.filter_append, ih a (List.mem_cons_self a as),
      ihl (fun c hc => ih c (List.mem_cons_of_mem a hc))]

theorem collect_eq (source target : String) (n : Node) : ∀ q,
    collect_identifier_nodes source target q n
      = (nodesWithParents q n).filter (collectPred source target) := by
  induction n using Node.strongInd with
  | h i k nm f sb eb sp ep ms cs ih =>
    intro q
    rw [collect_identifier_nodes_eq, nodesWithParents_eq, List.filter_cons]
    simp only [Node.children]
    rw [collectList_eq source target _ cs (fun c hc => ih c hc)]
    by_cases hcond : identKind (Node.mk i k nm f sb eb sp ep ms cs) ∧
        rust_to_lowercase (extract_name source
          (Node.mk i k nm f sb eb sp ep ms cs)) = target
    · rw [if_pos hcond, if_pos (show collectPred source target
        (q, Node.mk i k nm f sb eb sp ep ms cs) = true from decide_eq_true hcond)]
      rfl
    · rw [if_neg hcond, if_neg (show ¬collectPred source target
        (q, Node.mk i k nm f sb eb sp ep ms cs) = true from
          fun h => hcond (of_decide_eq_true h))]
      rfl

theorem count_filterMap_eq_one {α β : Type} [BEq β] [LawfulBEq β]
    (f : α → Option β) (b : β) :
    ∀ (l : List α), l.Nodup → ∀ x, x ∈ l → f x = some b →
      (∀ y ∈ l, f y = some b → y = x) → (l.filterMap f).count b = 1 := by
  intro l
  induction l with
  | nil => intro _ x hx; cases hx
  | cons a as ih =>
    intro hnodup x hx hfx huniq
    rcases List.pairwise_cons.mp hnodup with ⟨hna, hnas⟩
    rw [List.filterMap_cons]
    cases hx with
    | head =>
      rw [hfx]
      rw [List.count_cons_self]
      have hzero : (as.filterMap f).count b = 0 := by
        rw [List.count_eq_zero]
        intro hmem
        obtain ⟨y, hy, hfy⟩ := List.mem_filterMap.mp hmem
        have := huniq y (List.mem_cons_of_mem _ hy) hfy
        subst this
        exact hna _ hy rfl
      omega
    | tail _ hxas =>
      have hfa : f a ≠ some b := by
        intro hfa
        have := huniq a (List.mem_cons_self a as) hfa
        subst this
        exact hna _ hxas rfl
      cases hfa2 : f a with
      | none =>
        exact ih hnas x hxas hfx
          (fun y hy hfy => huniq y (List.mem_cons_of_mem _ hy) hfy)
      | some b2 =>
        have hb2 : b2 ≠ b := by
          intro he; subst he; exact hfa hfa2
        rw [List.count_cons_of_ne (fun he => hb2 he.symm)]
        exact ih hnas x hxas hfx
          (fun y hy hfy => huniq y (List.mem_cons_of_mem _ hy) hfy)

/-! ## C3: what the extractor guarantees about defining nodes -/

theorem extract_var_symbols_spec (source : String) (sec : Node)
    (sym : AlSymbol) (h : sym ∈ extract_var_symbols source sec) :
    ∃ V N, V ∈ sec.children ∧ V.kind = "variable_declaration" ∧
      V.childByFieldName "name" = some N ∧
      sym.name = extract_name source N ∧
      sym.start_byte = V.startByte ∧ sym.end_byte = V.endByte ∧
      sym.children = [] := by
  unfold extract_var_symbols at h
  obtain ⟨child, hc, hf⟩ := List.mem_filterMap.mp h
  have hc' : child ∈ sec.children := (List.mem_filter.mp hc).1
  by_cases hk : child.kind = "variable_declaration"
  · rw [if_pos hk] at hf
    cases hn : child.childByFieldName "name" with
    | none => rw [hn] at hf; exact absurd hf (by simp)
    | some name_node =>
      rw [hn] at hf
      have hsym := Option.some.inj hf
      refine ⟨child, name_node, hc', hk, hn, ?_, ?_, ?_, ?_⟩ <;>
        rw [← hsym] <;> rfl
  · rw [if_neg hk] at hf
    exact absurd hf (by simp)

theorem extract_parameter_symbols_spec (source : String) (sec : Node)
    (sym : AlSymbol) (h : sym ∈ extract_parameter_symbols source sec) :
    ∃ V N, V ∈ sec.children ∧ V.kind = "parameter" ∧
      V.childByFieldName "name" = some N ∧
      sym.name = extract_name source N ∧
      sym.start_byte = V.startByte ∧ sym.end_byte = V.endByte ∧
      sym.children = [] := by
  unfold extract_parameter_symbols at h
  obtain ⟨child, hc, hf⟩ := List.mem_filterMap.mp h
  have hc' : child ∈ sec.children := (List.mem_filter.mp hc).1
  by_cases hk : child.kind = "parameter"
  · rw [if_pos hk] at hf
    cases hn : child.childByFieldName "name" with
    | none => rw [hn] at hf; exact absurd hf (by simp)
    | some name_node =>
      rw [hn] at hf
      have hsym := Option.some.inj hf
      refine ⟨child, name_node, hc', hk, hn, ?_, ?_, ?_, ?_⟩ <;>
        rw [← hsym] <;> rfl
  · rw [if_neg hk] at hf
    exact absurd hf (by simp)

theorem extract_field_symbols_spec (source : String) (sec : Node)
    (sym : AlSymbol) (h : sym ∈ extract_field_symbols source sec) :
    ∃ V N, V ∈ sec.children ∧ V.kind = "field_declaration" ∧
      V.childByFieldName "name" = some N ∧
      sym.name = extract_name source N ∧
      sym.start_byte = V.startByte ∧ sym.end_byte = V.endByte ∧
      sym.children = [] := by
  unfold extract_field_symbols at h
  obtain ⟨child, hc, hf⟩ := List.mem_filterMap.mp h
  have hc' : child ∈ sec.children := (List.mem_filter.mp hc).1
  by_cases hk : child.kind = "field_declaration"
  · rw [if_pos hk] at hf
    cases hn : child.childByFieldName "name" with
    | none => rw [hn] at hf; exact absurd hf (by simp)
    | some name_node =>
      rw [hn] at hf
      have hsym := Option.some.inj hf
      refine ⟨child, name_node, hc', hk, hn, ?_, ?_, ?_, ?_⟩ <;>
        rw [← hsym] <;> rfl
  · rw [if_neg hk] at hf
    exact absurd hf (by simp)

theorem extract_key_symbols_spec (source : String) (sec : Node)
    (sym : AlSymbol) (h : sym ∈ extract_key_symbols source sec) :
    ∃ V N, V ∈ sec.children ∧ V.kind = "key_declaration" ∧
      V.childByFieldName "name" = some N ∧
      sym.name = extract_name source N ∧
      sym.start_byte = V.startByte ∧ sym.end_byte = V.endByte ∧
      sym.children = [] := by
  unfold extract_key_symbols at h
  obtain ⟨child, hc, hf⟩ := List.mem_filterMap.mp h
  have hc' : child ∈ sec.children := (List.mem_filter.mp hc).1
  by_cases hk : child.kind = "key_declaration"
  · rw [if_pos hk] at hf
    cases hn : child.childByFieldName "name" with
    | none => rw [hn] at hf; exact absurd hf (by simp)
    | some name_node =>
      rw [hn] at hf
      have hsym := Option.some.inj hf
      refine ⟨child, name_node, hc', hk, hn, ?_, ?_, ?_, ?_⟩ <;>
        rw [← hsym] <;> rfl
  · rw [if_neg hk] at hf
    exact absurd hf (by simp)

theorem extract_enum_value_symbol_spec (source : String) (m : Node)
    (sym : AlSymbol) (h : extract_enum_value_symbol source m = some sym) :
    ∃ N, m.childByFieldName "name" = some N ∧
      sym.name = extract_name source N ∧
      sym.start_byte = m.startByte ∧ sym.end_byte = m.endByte ∧
      sym.children = [] := by
  unfold extract_enum_value_symbol at h
  cases hn : m.childByFieldName "name" with
  | none => rw [hn] at h; exact absurd h (by simp)
  | some name_node =>
    rw [hn] at h
    have hsym := Option.some.inj h
    refine ⟨name_node, rfl, ?_, ?_, ?_, ?_⟩ <;> rw [← hsym] <;> rfl

theorem extract_procedure_symbol_spec (source : String) (m : Node)
    (sym : AlSymbol) (h : extract_procedure_symbol source m = some sym) :
    ∃ N, m.childByFieldName "name" = some N ∧
      sym.name = extract_name source N ∧
      sym.start_byte = m.startByte ∧ sym.end_byte = m.endByte ∧
      ∀ c ∈ sym.children,
        (∃ ps, m.childByFieldName "parameters" = some ps ∧
          c ∈ extract_parameter_symbols source ps) ∨
        (∃ vs, m.childByFieldName "vars" = some vs ∧
          c ∈ extract_var_symbols source vs) := by
  unfold extract_procedure_symbol at h
  cases hn : m.childByFieldName "name" with
  | none => rw [hn] at h; exact absurd h (by simp)
  | some name_node =>
    rw [hn] at h
    have hsym := Option.some.inj h
    refine ⟨name_node, rfl, ?_, ?_, ?_, ?_⟩
    · rw [← hsym]; rfl
    · rw [← hsym]; rfl
    · rw [← hsym]; rfl
    · intro c hc
      rw [← hsym] at hc
      have hc2 : c ∈ (match m.childByFieldName "parameters" with
          | some ps => extract_parameter_symbols source ps
          | none => []) ++ (match m.childByFieldName "vars" with
          | some vs => extract_var_symbols source vs
          | none => []) := hc
      rcases List.mem_append.mp hc2 with hcp | hcv
      · left
        cases hp : m.childByFieldName "parameters" with
        | none => rw [hp] at hcp; cases hcp
        | some ps =>
          rw [hp] at hcp
          exact ⟨ps, rfl, hcp⟩
      · right
        cases hv : m.childByFieldName "vars" with
        | none => rw [hv] at hcv; cases hcv
        | some vs =>
          rw [hv] at hcv
          exact ⟨vs, rfl, hcv⟩

theorem extract_trigger_symbol_spec (source : String) (m : Node)
    (sym : AlSymbol) (h : extract_trigger_symbol source m = some sym) :
    ∃ N, m.childByFieldName "name" = some N ∧
      sym.name = extract_name source N ∧
      sym.start_byte = m.startByte ∧ sym.end_byte = m.endByte ∧
      ∀ c ∈ sym.children,
        ∃ vs, m.childByFieldName "vars" = some vs ∧
          c ∈ extract_var_symbols source vs := by
  unfold extract_trigger_symbol at h
  cases hn : m.childByFieldName "name" with
  | none => rw [hn] at h; exact absurd h (by simp)
  | some name_node =>
    rw [hn] at h
    have hsym := Option.some.inj h
    refine ⟨name_node, rfl, ?_, ?_, ?_, ?_⟩
    · rw [← hsym]; rfl
    · rw [← hsym]; rfl
    · rw [← hsym]; rfl
    · intro c hc
      rw [← hsym] at hc
      have hc2 : c ∈ (match m.childByFieldName "vars" with
          | some vs => extract_var_symbols source vs
          | none => []) := hc
      cases hv : m.childByFieldName "vars" with
      | none => rw [hv] at hc2; cases hc2
      | some vs =>
        rw [hv] at hc2
        exact ⟨vs, rfl, hc2⟩

theorem extract_object_symbol_spec (source : String) (n : Node)
    (k : AlObjectKind) (sym : AlSymbol)
    (h : extract_object_symbol source n k = some sym) :
    ∃ N, n.namedChildren.find? (fun c => identKind c) = some N ∧
      sym.name = extract_name source N ∧
      sym.start_byte = n.startByte ∧ sym.end_byte = n.endByte ∧
      sym.children = extract_children_symbols source n := by
  unfold extract_object_symbol find_object_name at h
  cases hn : n.namedChildren.find? (fun c => identKind c) with
  | none => rw [hn] at h; exact absurd h (by simp)
  | some N =>
    rw [hn] at h
    have hsym := Option.some.inj h
    refine ⟨N, rfl, ?_, ?_, ?_, ?_⟩ <;> rw [← hsym] <;> rfl

theorem extract_children_symbols_spec (source : String) (obj : Node)
    (sym : AlSymbol) (h : sym ∈ extract_children_symbols source obj) :
    ∃ m ∈ obj.children,
      (m.kind = "procedure_declaration" ∧
        extract_procedure_symbol source m = some sym) ∨
      (m.kind = "trigger_declaration" ∧
        extract_trigger_symbol source m = some sym) ∨
      (m.kind = "var_section" ∧ sym ∈ extract_var_symbols source m) ∨
      (m.kind = "fields_section" ∧ sym ∈ extract_field_symbols source m) ∨
      (m.kind = "keys_section" ∧ sym ∈ extract_key_symbols source m) ∨
      (m.kind = "enum_value_declaration" ∧
        extract_enum_value_symbol source m = some sym) := by
  unfold extract_children_symbols at h
  obtain ⟨m, hm, hin⟩ := List.mem_flatMap.mp h
  refine ⟨m, (List.mem_filter.mp hm).1, ?_⟩
  by_cases h1 : m.kind = "procedure_declaration"
  · rw [if_pos h1] at hin
    exact Or.inl ⟨h1, Option.mem_toList.mp hin⟩
  rw [if_neg h1] at hin
  by_cases h2 : m.kind = "trigger_declaration"
  · rw [if_pos h2] at hin
    exact Or.inr (Or.inl ⟨h2, Option.mem_toList.mp hin⟩)
  rw [if_neg h2] at hin
  by_cases h3 : m.kind = "var_section"
  · rw [if_pos h3] at hin
    exact Or.inr (Or.inr (Or.inl ⟨h3, hin⟩))
  rw [if_neg h3] at hin
  by_cases h4 : m.kind = "fields_section"
  · rw [if_pos h4] at hin
    exact Or.inr (Or.inr (Or.inr (Or.inl ⟨h4, hin⟩)))
  rw [if_neg h4] at hin
  by_cases h5 : m.kind = "keys_section"
  · rw [if_pos h5] at hin
    exact Or.inr (Or.inr (Or.inr (Or.inr (Or.inl ⟨h5, hin⟩))))
  rw [if_neg h5] at hin
  by_cases h6 : m.kind = "enum_value_declaration"
  · rw [if_pos h6] at hin
    exact Or.inr (Or.inr (Or.inr (Or.inr (Or.inr
      ⟨h6, Option.mem_toList.mp hin⟩))))
  rw [if_neg h6] at hin
  cases hin

theorem extract_symbols_spec (tree : Node) (source : String) (sym : AlSymbol)
    (h : sym ∈ extract_symbols tree source) :
    ∃ child ∈ tree.children, ∃ k,
      AlObjectKind.from_node_kind child.kind = some k ∧
      extract_object_symbol source child k = some sym := by
  unfold extract_symbols at h
  obtain ⟨child, hc, hf⟩ := List.mem_filterMap.mp h
  refine ⟨child, (List.mem_filter.mp hc).1, ?_⟩
  cases hk : AlObjectKind.from_node_kind child.kind with
  | none => rw [hk] at hf; exact absurd hf (by simp)
  | some k =>
    rw [hk] at hf
    exact ⟨k, rfl, hf⟩

/-! ## C3: characterizing `is_definition_node` -/

theorem is_def_of_name_field (D N : Node)
    (hk : D.kind ∈ declParentKinds ∨ ends_with D.kind "_declaration" = true)
    (hf : D.childByFieldName "name" = some N) :
    is_definition_node (some D) N = true := by
  unfold is_definition_node
  dsimp only
  rw [if_pos hk, hf]
  simp

theorem is_def_object (D N : Node)
    (he : ends_with D.kind "_declaration" = true)
    (hnf : D.childByFieldName "name" = none)
    (hfind : D.namedChildren.find? (fun c => identKind c) = some N) :
    is_definition_node (some D) N = true := by
  unfold is_definition_node
  dsimp only
  rw [if_pos (Or.inr he), hnf, if_pos he, hfind]
  simp

theorem is_def_elim (D n : Node) (h : is_definition_node (some D) n = true) :
    (∃ N, D.childByFieldName "name" = some N ∧ N.nid = n.nid) ∨
    (D.childByFieldName "name" = none ∧
      ends_with D.kind "_declaration" = true ∧
      ∃ N, D.namedChildren.find? (fun c => identKind c) = some N ∧
        N.nid = n.nid) := by
  unfold is_definition_node at h
  dsimp only at h
  by_cases hk : D.kind ∈ declParentKinds ∨ ends_with D.kind "_declaration" = true
  · rw [if_pos hk] at h
    cases hf : D.childByFieldName "name" with
    | some N =>
      rw [hf] at h
      exact Or.inl ⟨N, rfl, of_decide_eq_true h⟩
    | none =>
      rw [hf] at h
      by_cases he : ends_with D.kind "_declaration" = true
      · rw [if_pos he] at h
        cases hfind : D.namedChildren.find? (fun c => identKind c) with
        | some N =>
          rw [hfind] at h
          exact Or.inr ⟨rfl, he, N, rfl, of_decide_eq_true h⟩
        | none => rw [hfind] at h; exact absurd h (by simp)
      · rw [if_neg he] at h; exact absurd h (by simp)
  · rw [if_neg hk] at h; exact absurd h (by simp)

theorem from_node_kind_ends (s : String) (k : AlObjectKind)
    (h : AlObjectKind.from_node_kind s = some k) :
    ends_with s "_declaration" = true := by
  unfold AlObjectKind.from_node_kind at h
  split at h
  case _ => decide
  case _ => decide
  case _ => decide
  case _ => decide
  case _ => decide
  case _ => decide
  case _ => decide
  case _ => decide
  case _ => decide
  case _ => decide
  case _ => decide
  case _ => decide
  case _ => decide
  case _ => exact Option.noConfusion h

/-! ## C3: membership in the symbol forest and in scoped lookup results -/

theorem self_mem_symPreorder (s : AlSymbol) : s ∈ symPreorder s := by
  rw [symPreorder_eq]
  exact List.mem_cons_self _ _

theorem mem_symPreorderList_of (l : List AlSymbol) (s : AlSymbol)
    (hs : s ∈ l) (x : AlSymbol) (hx : x ∈ symPreorder s) :
    x ∈ symPreorderList l := by
  induction l with
  | nil => cases hs
  | cons a as ih =>
    unfold symPreorderList
    cases hs with
    | head => exact List.mem_append_left _ hx
    | tail _ hm => exact List.mem_append_right _ (ih hm)

theorem mem_symPreorderList_ex (l : List AlSymbol) (x : AlSymbol)
    (hx : x ∈ symPreorderList l) : ∃ s ∈ l, x ∈ symPreorder s := by
  induction l with
  | nil => cases hx
  | cons a as ih =>
    unfold symPreorderList at hx
    rcases List.mem_append.mp hx with h | h
    · exact ⟨a, List.mem_cons_self a as, h⟩
    · obtain ⟨s, hs, hm⟩ := ih h
      exact ⟨s, List.mem_cons_of_mem a hs, hm⟩

theorem child_mem_symPreorder (s c : AlSymbol) (hc : c ∈ s.children) :
    c ∈ symPreorder s := by
  rw [symPreorder_eq]
  exact List.mem_cons_of_mem _
    (mem_symPreorderList_of s.children c hc c (self_mem_symPreorder c))

theorem localsSearch_subset (key : String) (o : Nat) :
    ∀ (cs : List AlSymbol) (acc r : List AlSymbol),
      localsSearch key o cs acc = some r →
      ∀ x ∈ r, x ∈ acc ∨
        ∃ c ∈ cs, x ∈ c.children ∧ rust_to_lowercase x.name = key := by
  intro cs
  induction cs with
  | nil => intro acc r h; cases h
  | cons c cs ih =>
    intro acc r h x hx
    unfold localsSearch at h
    by_cases hc : c.start_byte ≤ o ∧ o ≤ c.end_byte
    · rw [if_pos hc] at h
      by_cases hem : (acc ++ c.children.filter
          (fun l => rust_to_lowercase l.name = key)).isEmpty
      · rw [if_pos hem] at h
        rcases ih _ r h x hx with hmem | ⟨d, hd, hxd, hname⟩
        · rcases List.mem_append.mp hmem with ha | hf
          · exact Or.inl ha
          · have := List.mem_filter.mp hf
            exact Or.inr ⟨c, List.mem_cons_self c cs, this.1,
              of_decide_eq_true this.2⟩
        · exact Or.inr ⟨d, List.mem_cons_of_mem c hd, hxd, hname⟩
      · rw [if_neg hem] at h
        have hr : r = acc ++ c.children.filter
            (fun l => rust_to_lowercase l.name = key) :=
          (Option.some.inj h).symm
        subst hr
        rcases List.mem_append.mp hx with ha | hf
        · exact Or.inl ha
        · have := List.mem_filter.mp hf
          exact Or.inr ⟨c, List.mem_cons_self c cs, this.1,
            of_decide_eq_true this.2⟩
    · rw [if_neg hc] at h
      rcases ih _ r h x hx with hmem | ⟨d, hd, hxd, hname⟩
      · exact Or.inl hmem
      · exact Or.inr ⟨d, List.mem_cons_of_mem c hd, hxd, hname⟩

theorem scopeSearch_subset (key : String) (o : Nat) :
    ∀ (l r : List AlSymbol), scopeSearch key o l = some r →
      ∀ x ∈ r, (∃ s ∈ l,
        (x ∈ s.children ∨ ∃ c ∈ s.children, x ∈ c.children)) ∧
        rust_to_lowercase x.name = key := by
  intro l
  induction l with
  | nil => intro r h; cases h
  | cons s ss ih =>
    intro r h x hx
    unfold scopeSearch at h
    by_cases hc : s.start_byte ≤ o ∧ o ≤ s.end_byte
    · rw [if_pos hc] at h
      cases hloc : localsSearch key o s.children [] with
      | some rr =>
        rw [hloc] at h
        have hr : r = rr := (Option.some.inj h).symm
        subst hr
        rcases localsSearch_subset key o s.children [] r hloc x hx with
          hmem | ⟨c, hcm, hxc, hname⟩
        · cases hmem
        · exact ⟨⟨s, List.mem_cons_self s ss, Or.inr ⟨c, hcm, hxc⟩⟩, hname⟩
      | none =>
        rw [hloc] at h
        by_cases hobj : (s.children.filter
            (fun c => rust_to_lowercase c.name = key)).isEmpty
        · rw [if_pos hobj] at h
          obtain ⟨⟨s2, hs2, hloc2⟩, hname⟩ := ih r h x hx
          exact ⟨⟨s2, List.mem_cons_of_mem s hs2, hloc2⟩, hname⟩
        · rw [if_neg hobj] at h
          have hr : r = s.children.filter
              (fun c => rust_to_lowercase c.name = key) :=
            (Option.some.inj h).symm
          subst hr
          have := List.mem_filter.mp hx
          exact ⟨⟨s, List.mem_cons_self s ss, Or.inl this.1⟩,
            of_decide_eq_true this.2⟩
    · rw [if_neg hc] at h
      obtain ⟨⟨s2, hs2, hloc2⟩, hname⟩ := ih r h x hx
      exact ⟨⟨s2, List.mem_cons_of_mem s hs2, hloc2⟩, hname⟩

/-- Every scoped-lookup result lives in the symbol forest and matches the
queried name modulo case. -/
theorem mem_lookup_in_scope (t : DocumentSymbolTable) (name : String)
    (o : Nat) (x : AlSymbol) (hx : x ∈ t.lookup_in_scope name o) :
    x ∈ symPreorderList t.symbols ∧
    rust_to_lowercase x.name = rust_to_lowercase name := by
  unfold DocumentSymbolTable.lookup_in_scope at hx
  cases hs : scopeSearch (rust_to_lowercase name) o t.symbols with
  | some r =>
    rw [hs] at hx
    obtain ⟨⟨s, hsm, hloc⟩, hname⟩ :=
      scopeSearch_subset (rust_to_lowercase name) o t.symbols r hs x hx
    refine ⟨?_, hname⟩
    rcases hloc with hch | ⟨c, hcm, hxc⟩
    · exact mem_symPreorderList_of t.symbols s hsm x
        (child_mem_symPreorder s x hch)
    · refine mem_symPreorderList_of t.symbols s hsm x ?_
      rw [symPreorder_eq]
      exact List.mem_cons_of_mem _
        (mem_symPreorderList_of s.children c hcm x
          (child_mem_symPreorder c x hxc))
  | none =>
    rw [hs] at hx
    unfold DocumentSymbolTable.lookup at hx
    have := List.mem_filter.mp hx
    exact ⟨this.1, of_decide_eq_true this.2⟩

/-! ## C3: tree well-formedness and the defining-node correspondence -/

/-- The parent kinds `is_definition_node` accepts as declarations. -/
def DeclKind (n : Node) : Prop :=
  n.kind ∈ declParentKinds ∨ ends_with n.kind "_declaration" = true

instance (n : Node) : Decidable (DeclKind n) := by
  unfold DeclKind; infer_instance

/-- Well-formedness facts about a parse tree, all true of tree-sitter output:
node ids are unique; distinct declaration-kind nodes do not share the exact
same byte span; distinct identifier nodes do not share the exact same
row/column range; `name`-field children are identifiers; object declarations
carry no `name`-field child (their name is the first identifier child, as
`find_object_name` assumes). -/
def TreeWF (root : Node) : Prop :=
  ((nodesWithParents none root).map (fun pr => pr.2.nid)).Nodup ∧
  (∀ pr₁ ∈ nodesWithParents none root, ∀ pr₂ ∈ nodesWithParents none root,
    DeclKind pr₁.2 → DeclKind pr₂.2 →
    pr₁.2.startByte = pr₂.2.startByte → pr₁.2.endByte = pr₂.2.endByte →
    pr₁.2.nid = pr₂.2.nid) ∧
  (∀ pr₁ ∈ nodesWithParents none root, ∀ pr₂ ∈ nodesWithParents none root,
    identKind pr₁.2 → identKind pr₂.2 →
    pr₁.2.startPoint = pr₂.2.startPoint → pr₁.2.endPoint = pr₂.2.endPoint →
    pr₁.2.nid = pr₂.2.nid) ∧
  (∀ pr ∈ nodesWithParents none root,
    ((pr.2.childByFieldName "name").all fun N => decide (identKind N)) = true) ∧
  (∀ pr ∈ nodesWithParents none root,
    (AlObjectKind.from_node_kind pr.2.kind).isSome = true →
    (pr.2.childByFieldName "name").isNone = true)

instance (root : Node) : Decidable (TreeWF root) := by
  unfold TreeWF; infer_instance

theorem find?_some_explicit {α : Type} (p : α → Bool) (l : List α) (a : α)
    (h : l.find? p = some a) : p a = true :=
  List.find?_some h

theorem wf_pair_inj {root : Node} (h : TreeWF root)
    {pr₁ pr₂ : Option Node × Node} (h₁ : pr₁ ∈ nodesWithParents none root)
    (h₂ : pr₂ ∈ nodesWithParents none root) (hnid : pr₁.2.nid = pr₂.2.nid) :
    pr₁ = pr₂ :=
  List.inj_on_of_nodup_map h.1 h₁ h₂ hnid

theorem childByFieldName_mem (n : Node) (f : String) (N : Node)
    (h : n.childByFieldName f = some N) : N ∈ n.children :=
  List.mem_of_find?_eq_some h

theorem mem_symPreorder_cases (s x : AlSymbol) (hx : x ∈ symPreorder s) :
    x = s ∨ x ∈ symPreorderList s.children := by
  rw [symPreorder_eq] at hx
  cases hx with
  | head => exact Or.inl rfl
  | tail _ hm => exact Or.inr hm

theorem mem_symPreorder_of_leaf (s x : AlSymbol) (hnil : s.children = [])
    (hx : x ∈ symPreorder s) : x = s := by
  rcases mem_symPreorder_cases s x hx with h | h
  · exact h
  · rw [hnil] at h; cases h

/-- The conclusion packaged by the defining-node correspondence. -/
def HasDefNode (tree : Node) (source : String) (sym : AlSymbol) : Prop :=
  ∃ D N, (some D, N) ∈ nodesWithParents none tree ∧
    identKind N ∧ extract_name source N = sym.name ∧
    D.startByte = sym.start_byte ∧ D.endByte = sym.end_byte ∧
    DeclKind D ∧ is_definition_node (some D) N = true

theorem defnode_of_name_field (tree : Node) (source : String) (hwf : TreeWF tree)
    (V N : Node) (pV : Option Node) (sym : AlSymbol)
    (hVocc : (pV, V) ∈ nodesWithParents none tree) (hdecl : DeclKind V)
    (hn : V.childByFieldName "name" = some N)
    (hname : sym.name = extract_name source N)
    (hsb : sym.start_byte = V.startByte) (heb : sym.end_byte = V.endByte) :
    HasDefNode tree source sym := by
  refine ⟨V, N, ?_, ?_, hname.symm, hsb.symm, heb.symm, hdecl, ?_⟩
  · exact nwp_child tree none (pV, V) hVocc N (childByFieldName_mem V "name" N hn)
  · have hall := hwf.2.2.2.1 (pV, V) hVocc
    rw [hn] at hall
    exact of_decide_eq_true hall
  · exact is_def_of_name_field V N hdecl hn

theorem extract_defnode (tree : Node) (source : String) (sym : AlSymbol)
    (hwf : TreeWF tree)
    (hmem : sym ∈ symPreorderList (extract_symbols tree source)) :
    HasDefNode tree source sym := by
  obtain ⟨objSym, hobj, hsymin⟩ := mem_symPreorderList_ex _ _ hmem
  obtain ⟨objNode, hobjchild, k, hk, hobjex⟩ :=
    extract_symbols_spec tree source objSym hobj
  have hObjOcc : (some tree, objNode) ∈ nodesWithParents none tree :=
    nwp_child tree none (none, tree) (self_mem_nwp none tree) objNode hobjchild
  obtain ⟨Nobj, hfind, hnameo, hsbo, hebo, hchildren⟩ :=
    extract_object_symbol_spec source objNode k objSym hobjex
  rcases mem_symPreorder_cases objSym sym hsymin with heq | hsub
  · -- the object symbol itself
    subst heq
    refine ⟨objNode, Nobj, ?_, ?_, hnameo.symm, hsbo.symm, hebo.symm,
      Or.inr (from_node_kind_ends objNode.kind k hk), ?_⟩
    · exact nwp_child tree none (some tree, objNode) hObjOcc Nobj
        ((List.mem_filter.mp (List.mem_of_find?_eq_some hfind)).1)
    · exact of_decide_eq_true
        (find?_some_explicit (fun c => decide (identKind c)) _ _ hfind)
    · exact is_def_object objNode Nobj (from_node_kind_ends objNode.kind k hk)
        (Option.isNone_iff_eq_none.mp
          (hwf.2.2.2.2 (some tree, objNode) hObjOcc (by rw [hk]; rfl))) hfind
  · -- a member (or a member's local) of the object
    rw [hchildren] at hsub
    obtain ⟨sym2, hsym2, hsymin2⟩ := mem_symPreorderList_ex _ _ hsub
    obtain ⟨m, hm, hdisp⟩ := extract_children_symbols_spec source objNode sym2 hsym2
    have hmOcc : (some objNode, m) ∈ nodesWithParents none tree :=
      nwp_child tree none (some tree, objNode) hObjOcc m hm
    rcases hdisp with ⟨hkind, hex⟩ | ⟨hkind, hex⟩ | ⟨hkind, hex⟩ |
      ⟨hkind, hex⟩ | ⟨hkind, hex⟩ | ⟨hkind, hex⟩
    · -- procedure declaration
      obtain ⟨N, hn, hname2, hsb2, heb2, hkids⟩ :=
        extract_procedure_symbol_spec source m sym2 hex
      rcases mem_symPreorder_cases sym2 sym hsymin2 with heq2 | hsub2
      · subst heq2
        exact defnode_of_name_field tree source hwf m N (some objNode) sym
          hmOcc (Or.inl (by rw [hkind]; decide)) hn hname2 hsb2 heb2
      · obtain ⟨c, hc, hcin⟩ := mem_symPreorderList_ex _ _ hsub2
        rcases hkids c hc with ⟨ps, hps, hcps⟩ | ⟨vs, hvs, hcvs⟩
        · obtain ⟨V, Nc, hV, hVkind, hVn, hcname, hcsb, hceb, hcnil⟩ :=
            extract_parameter_symbols_spec source ps c hcps
          have heqc : sym = c := mem_symPreorder_of_leaf c sym hcnil hcin
          subst heqc
          have hpsOcc : (some m, ps) ∈ nodesWithParents none tree :=
            nwp_child tree none (some objNode, m) hmOcc ps
              (childByFieldName_mem m "parameters" ps hps)
          have hVOcc : (some ps, V) ∈ nodesWithParents none tree :=
            nwp_child tree none (some m, ps) hpsOcc V hV
          exact defnode_of_name_field tree source hwf V Nc (some ps) sym
            hVOcc (Or.inl (by rw [hVkind]; decide)) hVn hcname hcsb hceb
        · obtain ⟨V, Nc, hV, hVkind, hVn, hcname, hcsb, hceb, hcnil⟩ :=
            extract_var_symbols_spec source vs c hcvs
          have heqc : sym = c := mem_symPreorder_of_leaf c sym hcnil hcin
          subst heqc
          have hvsOcc : (some m, vs) ∈ nodesWithParents none tree :=
            nwp_child tree none (some objNode, m) hmOcc vs
              (childByFieldName_mem m "vars" vs hvs)
          have hVOcc : (some vs, V) ∈ nodesWithParents none tree :=
            nwp_child tree none (some m, vs) hvsOcc V hV
          exact defnode_of_name_field tree source hwf V Nc (some vs) sym
            hVOcc (Or.inl (by rw [hVkind]; decide)) hVn hcname hcsb hceb
    · -- trigger declaration
      obtain ⟨N, hn, hname2, hsb2, heb2, hkids⟩ :=
        extract_trigger_symbol_spec source m sym2 hex
      rcases mem_symPreorder_cases sym2 sym hsymin2 with heq2 | hsub2
      · subst heq2
        exact defnode_of_name_field tree source hwf m N (some objNode) sym
          hmOcc (Or.inl (by rw [hkind]; decide)) hn hname2 hsb2 heb2
      · obtain ⟨c, hc, hcin⟩ := mem_symPreorderList_ex _ _ hsub2
        obtain ⟨vs, hvs, hcvs⟩ := hkids c hc
        obtain ⟨V, Nc, hV, hVkind, hVn, hcname, hcsb, hceb, hcnil⟩ :=
          extract_var_symbols_spec source vs c hcvs
        have heqc : sym = c := mem_symPreorder_of_leaf c sym hcnil hcin
        subst heqc
        have hvsOcc : (some m, vs) ∈ nodesWithParents none tree :=
          nwp_child tree none (some objNode, m) hmOcc vs
            (childByFieldName_mem m "vars" vs hvs)
        have hVOcc : (some vs, V) ∈ nodesWithParents none tree :=
          nwp_child tree none (some m, vs) hvsOcc V hV
        exact defnode_of_name_field tree source hwf V Nc (some vs) sym
          hVOcc (Or.inl (by rw [hVkind]; decide)) hVn hcname hcsb hceb
    · -- var section
      obtain ⟨V, Nc, hV, hVkind, hVn, hcname, hcsb, hceb, hcnil⟩ :=
        extract_var_symbols_spec source m sym2 hex
      have heqc : sym = sym2 := mem_symPreorder_of_leaf sym2 sym hcnil hsymin2
      subst heqc
      have hVOcc : (some m, V) ∈ nodesWithParents none tree :=
        nwp_child tree none (some objNode, m) hmOcc V hV
      exact defnode_of_name_field tree source hwf V Nc (some m) sym
        hVOcc (Or.inl (by rw [hVkind]; decide)) hVn hcname hcsb hceb
    · -- fields section
      obtain ⟨V, Nc, hV, hVkind, hVn, hcname, hcsb, hceb, hcnil⟩ :=
        extract_field_symbols_spec source m sym2 hex
      have heqc : sym = sym2 := mem_symPreorder_of_leaf sym2 sym hcnil hsymin2
      subst heqc
      have hVOcc : (some m, V) ∈ nodesWithParents none tree :=
        nwp_child tree none (some objNode, m) hmOcc V hV
      exact defnode_of_name_field tree source hwf V Nc (some m) sym
        hVOcc (Or.inl (by rw [hVkind]; decide)) hVn hcname hcsb hceb
    · -- keys section
      obtain ⟨V, Nc, hV, hVkind, hVn, hcname, hcsb, hceb, hcnil⟩ :=
        extract_key_symbols_spec source m sym2 hex
      have heqc : sym = sym2 := mem_symPreorder_of_leaf sym2 sym hcnil hsymin2
      subst heqc
      have hVOcc : (some m, V) ∈ nodesWithParents none tree :=
        nwp_child tree none (some objNode, m) hmOcc V hV
      exact defnode_of_name_field tree source hwf V Nc (some m) sym
        hVOcc (Or.inl (by rw [hVkind]; decide)) hVn hcname hcsb hceb
    · -- enum value declaration
      obtain ⟨Nc, hn, hname2, hsb2, heb2, hnil⟩ :=
        extract_enum_value_symbol_spec source m sym2 hex
      have heqc : sym = sym2 := mem_symPreorder_of_leaf sym2 sym hnil hsymin2
      subst heqc
      exact defnode_of_name_field tree source hwf m Nc (some objNode) sym
        hmOcc (Or.inl (by rw [hkind]; decide)) hn hname2 hsb2 heb2

/-- A reference entry, when produced, is always the candidate node's own
point range (both branches of the callback push
`(node.start_position(), node.end_position())`). -/
theorem referenceEntry_some_eq (source : String) (t : DocumentSymbolTable)
    (tn : String) (ts te : Nat) (incl : Bool) (pr : Option Node × Node)
    (q : Point × Point)
    (h : referenceEntry source t tn ts te incl pr = some q) :
    q = (pr.2.startPoint, pr.2.endPoint) := by
  unfold referenceEntry at h
  dsimp only at h
  split at h
  · cases h
  · split at h
    · split at h
      · split at h
        · exact (Option.some.inj h).symm
        · cases h
      · cases h
    · split at h
      · cases h
      · split at h
        · exact (Option.some.inj h).symm
        · cases h

/-- The filtering conditions of the `find_all_references` callback: an
emitted definition-name candidate has a parent with exactly the target's
byte span, and an emitted non-definition candidate scope-resolves (at its own
start byte) to a symbol with the target's byte span. -/
theorem referenceEntry_filter_cases (source : String) (t : DocumentSymbolTable)
    (tn : String) (ts te : Nat) (incl : Bool) (pr : Option Node × Node)
    (q : Point × Point)
    (h : referenceEntry source t tn ts te incl pr = some q) :
    (is_definition_node pr.1 pr.2 = true →
      ∃ P, pr.1 = some P ∧ P.startByte = ts ∧ P.endByte = te) ∧
    (is_definition_node pr.1 pr.2 = false →
      ∃ r rest, t.lookup_in_scope (extract_name source pr.2) pr.2.startByte
        = r :: rest ∧ r.start_byte = ts ∧ r.end_byte = te) := by
  unfold referenceEntry at h
  dsimp only at h
  split at h
  · cases h
  · by_cases hd : is_definition_node pr.1 pr.2 = true
    · rw [if_pos hd] at h
      refine ⟨fun _ => ?_, fun hf => absurd hd (by rw [hf]; exact Bool.false_ne_true)⟩
      split at h
      · rename_i P hp
        split at h
        · rename_i hcond
          exact ⟨P, hp, hcond.1, hcond.2.1⟩
        · cases h
      · cases h
    · rw [if_neg hd] at h
      refine ⟨fun ht => absurd ht hd, fun _ => ?_⟩
      split at h
      · cases h
      · rename_i r rest hl
        split at h
        · rename_i hcond
          exact ⟨r, rest, hl, hcond.1, hcond.2⟩
        · cases h

theorem head?_mem_list (l : List AlSymbol) (a : AlSymbol)
    (h : l.head? = some a) : a ∈ l := by
  cases l with
  | nil => cases h
  | cons x xs =>
    rw [List.head?_cons] at h
    have hxa := Option.some.inj h
    rw [← hxa]
    exact List.mem_cons_self x xs

/-- A produced identifier context carries, as its symbol, the head of the
scoped lookup of its own name at the query offset. -/
theorem ctx_symbol_spec (tree : Node) (source : String)
    (t : DocumentSymbolTable) (o : Nat) (ctx : IdentifierContext)
    (hctx : identifier_context_at_offset tree source t o = some ctx) :
    ctx.symbol = (t.lookup_in_scope ctx.name o).head? := by
  unfold identifier_context_at_offset at hctx
  split at hctx
  · cases hctx
  · rename_i parent node heq
    dsimp only at hctx
    split at hctx
    · have hc := Option.some.inj hctx
      rw [← hc]
    · cases hctx

/-- C3: for every parse tree satisfying the tree-sitter well-formedness
facts `TreeWF` and the symbol table extracted from it, whenever the
identifier at byte offset `o` resolves to a symbol `target`,
`find_all_references o true` contains the target's own defining `name`
node's point range exactly once; the list is exactly the filter-map of the
per-candidate callback over the matching identifier nodes, and every
emitted candidate that is a definition name has a parent declaration with
exactly the target's byte span, while every other emitted candidate
scope-resolves at its own offset to a symbol with the target's byte span. -/
theorem C3_find_all_references (tree : Node) (source : String)
    (t : DocumentSymbolTable) (o : Nat) (ctx : IdentifierContext)
    (target : AlSymbol)
    (hwf : TreeWF tree)
    (htab : t.symbols = extract_symbols tree source)
    (hctx : identifier_context_at_offset tree source t o = some ctx)
    (hsym : ctx.symbol = some target) :
    ∃ D N,
      (some D, N) ∈ nodesWithParents none tree ∧
      is_definition_node (some D) N = true ∧
      extract_name source N = target.name ∧
      D.startByte = target.start_byte ∧ D.endByte = target.end_byte ∧
      (find_all_references tree source t o true).count
        (N.startPoint, N.endPoint) = 1 ∧
      find_all_references tree source t o true
        = (collect_identifier_nodes source (rust_to_lowercase ctx.name)
            none tree).filterMap
            (referenceEntry source t (rust_to_lowercase ctx.name)
              target.start_byte target.end_byte true) ∧
      ∀ pr ∈ collect_identifier_nodes source (rust_to_lowercase ctx.name)
          none tree,
        ∀ q, referenceEntry source t (rust_to_lowercase ctx.name)
            target.start_byte target.end_byte true pr = some q →
          (is_definition_node pr.1 pr.2 = true →
            ∃ P, pr.1 = some P ∧ P.startByte = target.start_byte ∧
              P.endByte = target.end_byte) ∧
          (is_definition_node pr.1 pr.2 = false →
            ∃ r rest, t.lookup_in_scope (extract_name source pr.2)
                pr.2.startByte = r :: rest ∧
              r.start_byte = target.start_byte ∧
              r.end_byte = target.end_byte) := by
  have hhead := ctx_symbol_spec tree source t o ctx hctx
  rw [hsym] at hhead
  have hmemt : target ∈ t.lookup_in_scope ctx.name o :=
    head?_mem_list _ _ hhead.symm
  obtain ⟨hmemP, hnameEq⟩ := mem_lookup_in_scope t ctx.name o target hmemt
  rw [htab] at hmemP
  have hdefnode := extract_defnode tree source target hwf hmemP
  unfold HasDefNode at hdefnode
  obtain ⟨D, N, hDN, hNid, hNname, hDsb, hDeb, hDdecl, hdef⟩ := hdefnode
  have hnameN : rust_to_lowercase (extract_name source N)
      = rust_to_lowercase ctx.name := by rw [hNname]; exact hnameEq
  have hrefs : find_all_references tree source t o true
      = (collect_identifier_nodes source (rust_to_lowercase ctx.name)
          none tree).filterMap
          (referenceEntry source t (rust_to_lowercase ctx.name)
            target.start_byte target.end_byte true) := by
    unfold find_all_references
    rw [hctx]
    dsimp only
    rw [hsym]
  have hmemC : (some D, N) ∈ collect_identifier_nodes source
      (rust_to_lowercase ctx.name) none tree := by
    rw [collect_eq]
    exact List.mem_filter.mpr ⟨hDN,
      show collectPred source (rust_to_lowercase ctx.name) (some D, N) = true
        from decide_eq_true ⟨hNid, hnameN⟩⟩
  have hnodupC : (collect_identifier_nodes source
      (rust_to_lowercase ctx.name) none tree).Nodup := by
    rw [collect_eq]
    exact (List.Nodup.of_map _ hwf.1).filter _
  have hentryN : referenceEntry source t (rust_to_lowercase ctx.name)
      target.start_byte target.end_byte true (some D, N)
      = some (N.startPoint, N.endPoint) := by
    unfold referenceEntry
    dsimp only
    rw [if_neg (fun hne => hne hnameN)]
    split
    · rw [if_pos ⟨hDsb, hDeb, rfl⟩]
    · rename_i hcontra
      exact absurd hdef hcontra
  have huniq : ∀ y ∈ collect_identifier_nodes source
      (rust_to_lowercase ctx.name) none tree,
      referenceEntry source t (rust_to_lowercase ctx.name) target.start_byte
        target.end_byte true y = some (N.startPoint, N.endPoint) →
      y = (some D, N) := by
    intro y hy hfy
    have hq := referenceEntry_some_eq source t (rust_to_lowercase ctx.name)
      target.start_byte target.end_byte true y _ hfy
    have hsp : y.2.startPoint = N.startPoint := (congrArg Prod.fst hq).symm
    have hep : y.2.endPoint = N.endPoint := (congrArg Prod.snd hq).symm
    have hyC : y ∈ (nodesWithParents none tree).filter
        (collectPred source (rust_to_lowercase ctx.name)) := by
      rw [← collect_eq]; exact hy
    obtain ⟨hyMem, hyPred⟩ := List.mem_filter.mp hyC
    have hyIdent : identKind y.2 := (of_decide_eq_true hyPred).1
    have hnid : y.2.nid = N.nid :=
      hwf.2.2.1 y hyMem (some D, N) hDN hyIdent hNid hsp hep
    exact wf_pair_inj hwf hyMem hDN hnid
  have hcount : (find_all_references tree source t o true).count
      (N.startPoint, N.endPoint) = 1 := by
    rw [hrefs]
    exact count_filterMap_eq_one _ _ _ hnodupC (some D, N) hmemC hentryN huniq
  refine ⟨D, N, hDN, hdef, hNname, hDsb, hDeb, hcount, hrefs, ?_⟩
  intro pr hpr q hq
  exact referenceEntry_filter_cases source t (rust_to_lowercase ctx.name)
    target.start_byte target.end_byte true pr q hq

/-- The identifier context produced at offset 36 of `src1` (the defining
`Hello` of the procedure). -/
def ctxC3 : IdentifierContext := ⟨nHello1, "Hello", some helloSym, true⟩

theorem C3_find_all_references_witness :
    ∃ D N,
      (some D, N) ∈ nodesWithParents none tree1 ∧
      is_definition_node (some D) N = true ∧
      extract_name src1 N = helloSym.name ∧
      D.startByte = helloSym.start_byte ∧ D.endByte = helloSym.end_byte ∧
      (find_all_references tree1 src1 table1 36 true).count
        (N.startPoint, N.endPoint) = 1 ∧
      find_all_references tree1 src1 table1 36 true
        = (collect_identifier_nodes src1 (rust_to_lowercase ctxC3.name)
            none tree1).filterMap
            (referenceEntry src1 table1 (rust_to_lowercase ctxC3.name)
              helloSym.start_byte helloSym.end_byte true) ∧
      ∀ pr ∈ collect_identifier_nodes src1 (rust_to_lowercase ctxC3.name)
          none tree1,
        ∀ q, referenceEntry src1 table1 (rust_to_lowercase ctxC3.name)
            helloSym.start_byte helloSym.end_byte true pr = some q →
          (is_definition_node pr.1 pr.2 = true →
            ∃ P, pr.1 = some P ∧ P.startByte = helloSym.start_byte ∧
              P.endByte = helloSym.end_byte) ∧
          (is_definition_node pr.1 pr.2 = false →
            ∃ r rest, table1.lookup_in_scope (extract_name src1 pr.2)
                pr.2.startByte = r :: rest ∧
              r.start_byte = helloSym.start_byte ∧
              r.end_byte = helloSym.end_byte) :=
  C3_find_all_references tree1 src1 table1 36 ctxC3 helloSym
    (by decide) rfl rfl rfl
